import Mathlib

/-!
Verification development for the jsonbro.dev JSON viewer core: the JSON
search / tree / path utilities (jsonUtils) and the Monaco editor
cursor-context analyzer and completion provider.  JavaScript strings are
modelled as Lean strings (lists of unicode scalars), JavaScript numbers
appearing inside JSON values are modelled as integers, and the host
JSON.parse / JSON.stringify builtins are modelled from the spec as an
executable serializer and recursive-descent parser over the JSON value
type.
-/

namespace JsonBro

/-! ### JavaScript string primitives -/

/-- Does the character list begin with the given pattern list. -/
def listStartsWith : List Char → List Char → Bool
  | _, [] => true
  | [], _ :: _ => false
  | a :: as, b :: bs => a == b && listStartsWith as bs

/-- JavaScript String.prototype.includes on character lists: true when the
pattern occurs contiguously anywhere (the empty pattern always matches). -/
def listIncludes : List Char → List Char → Bool
  | [], pat => pat.isEmpty
  | a :: as, pat => listStartsWith (a :: as) pat || listIncludes as pat

/-- JavaScript s.includes(pat). -/
def jsIncludes (s pat : String) : Bool := listIncludes s.data pat.data

/-- JavaScript s.includes(c) for a single character. -/
def jsIncludesChar (s : String) (c : Char) : Bool := s.data.contains c

/-- JavaScript String.prototype.toLowerCase restricted to ASCII case
mapping, which is all the source relies on. -/
def jsToLower (s : String) : String := String.mk (s.data.map Char.toLower)

/-- JavaScript String.prototype.split on the newline character: the list of
chunks between newlines; the empty text yields one empty chunk. -/
def splitNlChars : List Char → List (List Char)
  | [] => [[]]
  | c :: rest =>
    if c = '\n' then [] :: splitNlChars rest
    else
      match splitNlChars rest with
      | [] => [[c]]
      | l :: ls => (c :: l) :: ls

/-- JavaScript text.split(newline) as strings. -/
def splitNl (s : String) : List String := (splitNlChars s.data).map List.asString

/-- JavaScript chunk.split(space) over character lists. -/
def splitSpChars : List Char → List (List Char)
  | [] => [[]]
  | c :: rest =>
    if c = ' ' then [] :: splitSpChars rest
    else
      match splitSpChars rest with
      | [] => [[c]]
      | l :: ls => (c :: l) :: ls

/-- JavaScript chunk.split(space) as strings. -/
def splitSp (s : String) : List String := (splitSpChars s.data).map List.asString

/-! ### JSON values

The JSON value union from the data model: null, boolean, number, string,
array, object with insertion-ordered keys.  Arrays and objects are given
as mutually inductive list types so that every traversal below is plain
structural recursion.  Numbers are modelled as integers. -/

mutual

inductive JSValue where
  | null : JSValue
  | bool : Bool → JSValue
  | num : Int → JSValue
  | str : String → JSValue
  | arr : JSArr → JSValue
  | obj : JSObj → JSValue

inductive JSArr where
  | nil : JSArr
  | cons : JSValue → JSArr → JSArr

inductive JSObj where
  | nil : JSObj
  | cons : String → JSValue → JSObj → JSObj

end

deriving instance DecidableEq for JSValue

deriving instance Repr for JSValue

/-- The node record produced by convertToTree and searchJSON (interface
JSONNode in jsonUtils): optional key, value, type tag, path string. -/
structure JSONNode where
  key : Option String
  value : JSValue
  type : String
  path : String
deriving DecidableEq, Repr

/-- JavaScript (bool).toString(). -/
def boolStr (b : Bool) : String := if b then "true" else "false"

/-- Decimal digits of a natural number, most significant first, with an
explicit fuel so the kernel can evaluate it; the fuel n + 1 always
suffices because the argument shrinks strictly at every step. -/
def natDigitsAux : Nat → Nat → List Char
  | 0, _ => []
  | fuel + 1, n =>
    if n < 10 then [Char.ofNat (48 + n)]
    else natDigitsAux fuel (n / 10) ++ [Char.ofNat (48 + n % 10)]

/-- Decimal digits of a natural number, most significant first. -/
def natDigits (n : Nat) : List Char := natDigitsAux (n + 1) n

/-- JavaScript (num).toString() for an integer value: decimal digits with a
leading minus sign for negatives. -/
def intToStr (i : Int) : String :=
  if i < 0 then "-" ++ (natDigits i.natAbs).asString
  else (natDigits i.toNat).asString

/-! ### searchJSON (jsonUtils) -/

/-- The type tag computed at a key match inside searchJSON: the source
ternary sends objects to "object", arrays to "array" and otherwise uses the
JavaScript typeof, under which null is reported as "object". -/
def keyMatchType : JSValue → String
  | .obj _ => "object"
  | .arr _ => "array"
  | .null => "object"
  | .bool _ => "boolean"
  | .num _ => "number"
  | .str _ => "string"

mutual

/-- The inner searchRecursive closure of searchJSON: term is the raw search
term (used for numbers), searchLower its lowercased form. -/
def searchRec (term searchLower : String) : JSValue → String → List JSONNode
  | .null, path =>
    if jsIncludes searchLower "null" then [⟨none, .null, "null", path⟩] else []
  | .str s, path =>
    if jsIncludes (jsToLower s) searchLower then [⟨none, .str s, "string", path⟩] else []
  | .num n, path =>
    if jsIncludes (intToStr n) term then [⟨none, .num n, "number", path⟩] else []
  | .bool b, path =>
    if jsIncludes (jsToLower (boolStr b)) searchLower then [⟨none, .bool b, "boolean", path⟩] else []
  | .arr items, path => searchArr term searchLower items path 0
  | .obj fields, path => searchObj term searchLower fields path
  termination_by structural v _ => v

def searchArr (term searchLower : String) : JSArr → String → Nat → List JSONNode
  | .nil, _, _ => []
  | .cons v rest, path, index =>
    let itemPath :=
      if path = "root" then "root[" ++ intToStr index ++ "]"
      else path ++ "[" ++ intToStr index ++ "]"
    searchRec term searchLower v itemPath ++ searchArr term searchLower rest path (index + 1)
  termination_by structural items _ _ => items

def searchObj (term searchLower : String) : JSObj → String → List JSONNode
  | .nil, _ => []
  | .cons k v rest, path =>
    let keyPath := if path = "root" then "root." ++ k else path ++ "." ++ k
    (if jsIncludes (jsToLower k) searchLower then [⟨some k, v, keyMatchType v, keyPath⟩] else [])
      ++ searchRec term searchLower v keyPath
      ++ searchObj term searchLower rest path
  termination_by structural fields _ => fields

end

/-- searchJSON from jsonUtils: recursive search from the root path. -/
def searchJSON (v : JSValue) (searchTerm : String) : List JSONNode :=
  searchRec searchTerm (jsToLower searchTerm) v "root"

/-! ### convertToTree (jsonUtils) -/

mutual

/-- convertToTree from jsonUtils: pre-order flattening; an empty path is
replaced by the label root on the node itself only. -/
def convertToTree : JSValue → String → List JSONNode
  | .null, path => [⟨none, .null, "null", if path = "" then "root" else path⟩]
  | .str s, path => [⟨none, .str s, "string", if path = "" then "root" else path⟩]
  | .num n, path => [⟨none, .num n, "number", if path = "" then "root" else path⟩]
  | .bool b, path => [⟨none, .bool b, "boolean", if path = "" then "root" else path⟩]
  | .arr items, path =>
    ⟨none, .arr items, "array", if path = "" then "root" else path⟩ :: treeArr items path 0
  | .obj fields, path =>
    ⟨none, .obj fields, "object", if path = "" then "root" else path⟩ :: treeObj fields path
  termination_by structural v _ => v

def treeArr : JSArr → String → Nat → List JSONNode
  | .nil, _, _ => []
  | .cons v rest, path, index =>
    convertToTree v (path ++ "[" ++ intToStr index ++ "]") ++ treeArr rest path (index + 1)
  termination_by structural items _ _ => items

def treeObj : JSObj → String → List JSONNode
  | .nil, _ => []
  | .cons k v rest, path =>
    convertToTree v (path ++ "." ++ k) ++ treeObj rest path
  termination_by structural fields _ => fields

end

mutual

/-- Number of matches searchJSON produces for the empty search term: one
per string, number or boolean value and one per object key, none for
nulls.  This is the measuring definition for the amended empty-term
claim. -/
def matchCount : JSValue → Nat
  | .null => 0
  | .str _ => 1
  | .num _ => 1
  | .bool _ => 1
  | .arr items => matchCountArr items
  | .obj fields => matchCountObj fields
  termination_by structural v => v

def matchCountArr : JSArr → Nat
  | .nil => 0
  | .cons v rest => matchCount v + matchCountArr rest
  termination_by structural items => items

def matchCountObj : JSObj → Nat
  | .nil => 0
  | .cons _ v rest => 1 + matchCount v + matchCountObj rest
  termination_by structural fields => fields

end

/-! ### Cursor-context analyzer (MonacoJSONEditor detectStringContext)

The editor document is modelled as its list of lines (1-based access, as
in the Monaco text model) plus a 1-based cursor line number and column;
the cursor sits immediately before the character at the given column. -/

/-- The context record returned by detectStringContext. -/
structure CursorCtx where
  text : String
  path : List String
  isValue : Bool
  insideQuotes : Bool
deriving DecidableEq, Repr

/-- Monaco model.getLineContent with 1-based line numbers; out-of-range
lines read as empty. -/
def getLineContent (lines : List String) (n : Nat) : String :=
  (lines.get? (n - 1)).getD ""

/-- JavaScript s.substring(0, k). -/
def strTake (s : String) (k : Nat) : String := (s.data.take k).asString

/-- JavaScript regex class for word characters inside the editor:
[a-zA-Z0-9_.-]. -/
def isWordChar (c : Char) : Bool :=
  c.isAlphanum || c = '_' || c = '.' || c = '-'

/-- JavaScript regex class for whitespace as used by the backslash-s in
the key pattern. -/
def isJsWs (c : Char) : Bool :=
  c = ' ' || c = '\t' || c = '\n' || c = Char.ofNat 13 ||
    c = Char.ofNat 11 || c = Char.ofNat 12

/-- One attempt of the key regex at a position just after an opening
quote: a nonempty run of non-quote characters, a closing quote, then
optional whitespace and a colon (the lookahead). -/
def keyAt (cs : List Char) : Option String :=
  let run := cs.takeWhile (fun c => c ≠ '"')
  if run.isEmpty then none
  else
    match cs.dropWhile (fun c => c ≠ '"') with
    | '"' :: rest =>
      match rest.dropWhile isJsWs with
      | ':' :: _ => some run.asString
      | _ => none
    | _ => none

/-- Leftmost match of the key-before-colon regex used by getCurrentPath. -/
def firstKeyMatch : List Char → Option String
  | [] => none
  | c :: rest =>
    if c = '"' then
      match keyAt rest with
      | some k => some k
      | none => firstKeyMatch rest
    else firstKeyMatch rest

/-- Mutable state of the backward scan in getCurrentPath. -/
structure ScanState where
  depth : Int
  inString : Bool
  escapeNext : Bool
  isValue : Bool
  currentKey : String
deriving DecidableEq, Repr

/-- Outcome of processing one character: an early return carrying the
path and isValue, or the updated state. -/
inductive ScanOut where
  | done (path : List String) (isValue : Bool)
  | cont (st : ScanState)
deriving DecidableEq, Repr

/-- Processing of the character at index i of the scanned line, a direct
translation of the inner loop body of getCurrentPath. -/
def scanStep (line : List Char) (i : Nat) (st : ScanState) : ScanOut :=
  let c := line.getD i ' '
  if st.escapeNext then .cont { st with escapeNext := false }
  else if c = '\\' then .cont { st with escapeNext := true }
  else if c = '"' then .cont { st with inString := !st.inString }
  else if !st.inString then
    if c = '}' ∨ c = ']' then .cont { st with depth := st.depth + 1 }
    else if c = '{' ∨ c = '[' then
      if st.depth - 1 < 0 then
        .done (if st.currentKey ≠ "" then [st.currentKey] else []) st.isValue
      else .cont { st with depth := st.depth - 1 }
    else if c = ':' ∧ st.depth = 0 then
      match firstKeyMatch (line.take i) with
      | some k => .done [k] true
      | none => .cont { st with isValue := true }
    else .cont st
  else .cont st

/-- The inner loop of getCurrentPath: indices i-1 down to 0 of the line. -/
def scanLineRev (line : List Char) : Nat → ScanState → ScanOut
  | 0, st => .cont st
  | i + 1, st =>
    match scanStep line i st with
    | .done p b => .done p b
    | .cont st2 => scanLineRev line i st2

/-- The outer loop of getCurrentPath: line numbers k down to 1, using the
truncated cursor line at the cursor position and full lines above it.
Falling out of the loop returns the untouched (empty) path and the
isValue flag as last computed. -/
def scanLines (lines : List String) (cursorLine : Nat) (untilCursor : String) :
    Nat → ScanState → List String × Bool
  | 0, st => ([], st.isValue)
  | k + 1, st =>
    let cl := if k + 1 = cursorLine then untilCursor else getLineContent lines (k + 1)
    match scanLineRev cl.data cl.data.length st with
    | .done p b => (p, b)
    | .cont st2 => scanLines lines cursorLine untilCursor k st2

/-- The quote-parity pass of detectStringContext over the text before the
cursor; the escape flag is toggled by backslashes and cleared by every
other character, as in the source. -/
def countQuotes : List Char → Bool → Nat
  | [], _ => 0
  | c :: rest, esc =>
    if c = '\\' then countQuotes rest (!esc)
    else (if c = '"' ∧ esc = false then 1 else 0) + countQuotes rest false

/-- The maximal trailing run of word characters, the in-progress token. -/
def trailingWordRun (s : String) : String :=
  ((s.data.reverse.takeWhile isWordChar).reverse).asString

/-- detectStringContext from MonacoJSONEditor: token text, single-segment
path, value-position flag and quote parity for the cursor at the given
1-based line and column. -/
def detectStringContext (lines : List String) (lineNumber column : Nat) : CursorCtx :=
  let line := getLineContent lines lineNumber
  let beforeCursor := strTake line (column - 1)
  let untilCursor := strTake line column
  let pr := scanLines lines lineNumber untilCursor lineNumber ⟨0, false, false, false, ""⟩
  { text := trailingWordRun beforeCursor
    path := pr.1
    isValue := pr.2
    insideQuotes := countQuotes beforeCursor.data false % 2 = 1 }

/-! ### Suggestion engine (MonacoJSONEditor getWordBasedSuggestions and
provideCompletionItems) -/

/-- A Monaco completion item as built by the provider; kinds are opaque
numeric tags. -/
structure Suggestion where
  label : String
  kind : Nat
  insertText : String
  detail : Option String
  documentation : Option String
  sortText : Option String
  range : Option (Nat × Nat × Nat × Nat)
deriving DecidableEq, Repr

def kindValue : Nat := 13

def kindVariable : Nat := 4

def kindProperty : Nat := 9

/-- Wrapping a string in JSON quotes. -/
def quoteWrap (s : String) : String := "\"" ++ s ++ "\""

/-- The fixed stop-word list of getWordBasedSuggestions. -/
def commonWords : List String :=
  ["and", "or", "the", "a", "an", "is", "are", "was", "were", "has", "have",
   "had", "to", "of", "in", "for", "on", "at", "by", "from", "with", "as",
   "but", "not", "be", "been", "it", "this", "that", "these", "those", "i",
   "you", "he", "she", "we", "they"]

/-- Lookup in the lowercase-to-original-case map. -/
def mapGet (m : List (String × String)) (k : String) : Option String :=
  (m.find? (fun p => p.1 = k)).map (fun p => p.2)

/-- Update of the lowercase-to-original-case map. -/
def mapSet (m : List (String × String)) (k v : String) : List (String × String) :=
  if (m.find? (fun p => p.1 = k)).isSome then
    m.map (fun p => if p.1 = k then (k, v) else p)
  else m ++ [(k, v)]

/-- Accumulated state while getWordBasedSuggestions walks the vocabulary:
the emitted suggestions, the set of lowercased insert texts, the set of
words seen, the case-preference map, and the set of lowercased labels. -/
structure WordGenState where
  suggestions : List Suggestion
  processed : List String
  allWords : List String
  lowercaseToOriginal : List (String × String)
  existingSugg : List String
deriving DecidableEq, Repr

/-- One iteration of the word loop of getWordBasedSuggestions. -/
def wordStep (inputText : String) (shouldAddQuotes : Bool)
    (st : WordGenState) (word : String) : WordGenState :=
  if word ≠ "" ∧ word.length < 50 then
    let lowerWord := jsToLower word
    let l2o :=
      match mapGet st.lowercaseToOriginal lowerWord with
      | some existing =>
        if word.length > existing.length then mapSet st.lowercaseToOriginal lowerWord word
        else st.lowercaseToOriginal
      | none => mapSet st.lowercaseToOriginal lowerWord word
    let st1 := { st with lowercaseToOriginal := l2o }
    if inputText = "" ∨ jsIncludes lowerWord (jsToLower inputText) then
      if commonWords.contains lowerWord = false ∨ (inputText ≠ "" ∧ lowerWord = jsToLower inputText) then
        let displayWord := (mapGet st1.lowercaseToOriginal lowerWord).getD word
        let sug : Suggestion :=
          if shouldAddQuotes then
            { label := quoteWrap displayWord, kind := kindValue,
              insertText := quoteWrap displayWord, detail := none,
              documentation := some ("Use quoted word: " ++ quoteWrap displayWord),
              sortText := none, range := none }
          else
            { label := displayWord, kind := kindVariable, insertText := displayWord,
              detail := none,
              documentation := some ("Use word: " ++ quoteWrap displayWord),
              sortText := none, range := none }
        let suggestionKey := jsToLower sug.insertText
        let suggestionLabel := jsToLower sug.label
        if st1.processed.contains suggestionKey = false ∧
            st1.existingSugg.contains suggestionLabel = false then
          { st1 with suggestions := st1.suggestions ++ [sug],
                     processed := st1.processed ++ [suggestionKey],
                     existingSugg := st1.existingSugg ++ [suggestionLabel],
                     allWords := st1.allWords ++ [lowerWord] }
        else st1
      else st1
    else st1
  else st

/-- One iteration of the chunk loop of getWordBasedSuggestions; the second
component threads the processedChunks set. -/
def chunkStep (inputText : String) (shouldAddQuotes : Bool)
    (acc : WordGenState × List String) (chunk : String) : WordGenState × List String :=
  let st := acc.1
  let processedChunks := acc.2
  if chunk ≠ "" ∧ chunk.length < 100 then
    let lowerChunk := jsToLower chunk
    if processedChunks.contains lowerChunk then (st, processedChunks)
    else
      let pc2 := processedChunks ++ [lowerChunk]
      let chunkWords := (splitSp chunk).filter (fun w => w ≠ "")
      if chunkWords.length > 1 ∧ (inputText = "" ∨ jsIncludes lowerChunk (jsToLower inputText)) then
        if chunkWords.all (fun w => st.allWords.contains (jsToLower w)) = false then
          let sug : Suggestion :=
            if shouldAddQuotes then
              { label := quoteWrap chunk, kind := kindValue, insertText := quoteWrap chunk,
                detail := none,
                documentation := some ("Use quoted chunk: " ++ quoteWrap chunk),
                sortText := some ("1" ++ chunk), range := none }
            else
              { label := chunk, kind := kindVariable, insertText := chunk,
                detail := none,
                documentation := some ("Use word chunk: " ++ quoteWrap chunk),
                sortText := some ("1" ++ chunk), range := none }
          let suggestionKey := jsToLower sug.insertText
          let suggestionLabel := jsToLower sug.label
          if st.processed.contains suggestionKey = false ∧
              st.existingSugg.contains suggestionLabel = false then
            ({ st with suggestions := st.suggestions ++ [sug],
                       processed := st.processed ++ [suggestionKey],
                       existingSugg := st.existingSugg ++ [suggestionLabel] }, pc2)
          else (st, pc2)
        else (st, pc2)
      else (st, pc2)
  else (st, processedChunks)

/-- getWordBasedSuggestions from MonacoJSONEditor: the optional
auto-quoted token, then word candidates, then multi-word chunk
candidates, with the deduplication sets of the source. -/
def getWordBasedSuggestions (ctx : CursorCtx)
    (existingWords existingChunks : List String) : List Suggestion :=
  let inputText := ctx.text
  let shouldAddQuotes := !ctx.insideQuotes
  let st0 : WordGenState := ⟨[], [], [], [], []⟩
  let st1 :=
    if shouldAddQuotes ∧ inputText.length > 0 then
      let quotedVersion := quoteWrap inputText
      { st0 with
          suggestions := [{ label := quotedVersion, kind := kindValue,
                            insertText := quotedVersion,
                            detail := some "Auto-quoted string",
                            documentation := some "Convert unquoted string to JSON string format",
                            sortText := none, range := none }],
          processed := [quotedVersion],
          allWords := [inputText] }
    else st0
  let st2 := existingWords.foldl (wordStep inputText shouldAddQuotes) st1
  (existingChunks.foldl (chunkStep inputText shouldAddQuotes) (st2, [])).1.suggestions

/-- JavaScript truthiness of a JSON value. -/
def isFalsy : JSValue → Bool
  | .null => true
  | .num n => n = 0
  | .str s => s = ""
  | .bool b => b = false
  | .arr _ => false
  | .obj _ => false

def objKeys : JSObj → List String
  | .nil => []
  | .cons k _ rest => k :: objKeys rest

def arrLen : JSArr → Nat
  | .nil => 0
  | .cons _ rest => 1 + arrLen rest

/-- JavaScript Object.keys: field names of an object, index strings of an
array. -/
def jsObjectKeys : JSValue → List String
  | .obj fields => objKeys fields
  | .arr items => (List.range (arrLen items)).map (fun i => (natDigits i).asString)
  | _ => []

def objGet : JSObj → String → Option JSValue
  | .nil, _ => none
  | .cons k v rest, key =>
    match objGet rest key with
    | some w => some w
    | none => if k = key then some v else none

def arrGet : JSArr → Nat → String → Option JSValue
  | .nil, _, _ => none
  | .cons v rest, i, key =>
    if (natDigits i).asString = key then some v else arrGet rest (i + 1) key

/-- JavaScript property access obj[key] on a JSON value with a string
key. -/
def jsIndex : JSValue → String → Option JSValue
  | .obj fields, k => objGet fields k
  | .arr items, k => arrGet items 0 k
  | _, _ => none

/-- getSimilarProperties from provideCompletionItems, recursing over the
remaining context path: at the last segment the keys of the current
container are collected; non-objects and falsy lookups stop with no
properties. -/
def getSimilarProperties : JSValue → List String → List String
  | v, path =>
    if isFalsy v then []
    else
      match v with
      | .arr _ | .obj _ =>
        (match path with
         | [] => []
         | [_] => jsObjectKeys v
         | _ :: rest =>
           match jsIndex v (path.headD "") with
           | some v2 => if isFalsy v2 then [] else getSimilarProperties v2 rest
           | none => [])
      | _ => []
  termination_by _ path => path.length

/-- Backward scan for the start of the in-progress token when computing
the replacement range; an out-of-range character reads as a word
character, as the JavaScript regex test on undefined does. -/
def wordStartAux (line : List Char) : Nat → Nat
  | 0 => 0
  | w + 1 =>
    if (match line.get? w with
        | none => true
        | some ch => isWordChar ch) then wordStartAux line w
    else w + 1

/-- The raw text key of a suggestion used by the final filter:
insertText, falling back to the label when empty. -/
def sugKey (s : Suggestion) : String :=
  if s.insertText ≠ "" then s.insertText else s.label

/-- The final filter loop of provideCompletionItems: drop empty texts and
texts containing the dollar-schema marker, deduplicate by the raw key,
and attach the replacement range. -/
def finalFilter (range : Nat × Nat × Nat × Nat) :
    List Suggestion → List String → List Suggestion
  | [], _ => []
  | s :: rest, seen =>
    let textRaw := sugKey s
    let text := jsToLower textRaw
    if text = "" ∨ jsIncludes text "$schema" then finalFilter range rest seen
    else if seen.contains textRaw then finalFilter range rest seen
    else { s with range := some range } :: finalFilter range rest (seen ++ [textRaw])

/-- provideCompletionItems from MonacoJSONEditor.  The document is the
list of lines with the 1-based cursor position; parsed is the result of
attempting to parse the full document (none when parsing threw), and the
extracted vocabulary is passed in as the word and chunk lists, exactly
the inputs of a completion request. -/
def provideCompletionItems (lines : List String) (lineNumber column : Nat)
    (parsed : Option JSValue) (existingWords existingChunks : List String) :
    List Suggestion :=
  let ctx := detectStringContext lines lineNumber column
  let currentLine := getLineContent lines lineNumber
  let linePrefix := strTake currentLine column
  if jsIncludesChar linePrefix '$' ∨ jsIncludes linePrefix "schema" ∨
      jsIncludesChar ctx.text '$' ∨ jsIncludes (jsToLower ctx.text) "schema" then []
  else
    let similar : List Suggestion :=
      match parsed with
      | some j =>
        if ctx.path.length > 0 then
          (getSimilarProperties j ctx.path).map (fun prop =>
            { label := quoteWrap prop, kind := kindProperty,
              insertText := quoteWrap prop,
              detail := some "Similar property from current context",
              documentation := none, sortText := some ("0" ++ prop), range := none })
        else []
      | none => []
    let wordSuggestions := getWordBasedSuggestions ctx existingWords existingChunks
    let wordStart := wordStartAux currentLine.data (column - 1)
    finalFilter (lineNumber, lineNumber, wordStart + 1, column)
      (similar ++ wordSuggestions) []

/-! ### Safe JSON parser and formatter (jsonUtils formatJSON / minifyJSON)

Modelled from the spec: formatJSON and minifyJSON are thin wrappers over
the host JSON.stringify builtin, and the parse direction is the host
JSON.parse builtin, neither of which is in the repository.  The
serializer below follows the standard JSON serialization with a gap
string (no whitespace when the indent unit is empty, line breaks and
accumulated indentation otherwise), and the parser is a standard
recursive-descent JSON parser with an explicit nesting fuel; numbers are
modelled as integers (float formatting is out of scope). -/

/-- Whitespace accepted between JSON tokens. -/
def isJsonWs (c : Char) : Bool :=
  c = ' ' || c = '\t' || c = '\n' || c = Char.ofNat 13

/-- Dropping leading inter-token whitespace. -/
def skipWs (s : List Char) : List Char := s.dropWhile isJsonWs

/-- Lowercase hexadecimal digit for a value below 16. -/
def hexDigitChar (n : Nat) : Char :=
  if n < 10 then Char.ofNat (48 + n) else Char.ofNat (87 + n)

/-- Value of a hexadecimal digit character. -/
def hexVal (c : Char) : Option Nat :=
  if '0' ≤ c ∧ c ≤ '9' then some (c.toNat - 48)
  else if 'a' ≤ c ∧ c ≤ 'f' then some (c.toNat - 87)
  else if 'A' ≤ c ∧ c ≤ 'F' then some (c.toNat - 55)
  else none

/-- JSON string escaping of one character: quote and backslash escaped,
named control escapes, a four-digit unicode escape for the remaining
control characters, everything else literal. -/
def escChar (c : Char) : List Char :=
  if c = '"' then ['\\', '"']
  else if c = '\\' then ['\\', '\\']
  else if c = Char.ofNat 8 then ['\\', 'b']
  else if c = Char.ofNat 12 then ['\\', 'f']
  else if c = '\n' then ['\\', 'n']
  else if c = Char.ofNat 13 then ['\\', 'r']
  else if c = '\t' then ['\\', 't']
  else if c.toNat < 32 then
    ['\\', 'u', '0', '0', hexDigitChar (c.toNat / 16), hexDigitChar (c.toNat % 16)]
  else [c]

def escList : List Char → List Char
  | [] => []
  | c :: rest => escChar c ++ escList rest

/-- A JSON string literal for the given text. -/
def quoteJSONString (s : String) : String :=
  String.mk ('"' :: (escList s.data ++ ['"']))

mutual

/-- Serialization of a value with an indent unit and the accumulated gap
of the enclosing nesting level: compact when the unit is empty, otherwise
each child on its own line behind gap plus one more unit. -/
def ser (unit gap : String) : JSValue → String
  | .null => "null"
  | .bool b => boolStr b
  | .num n => intToStr n
  | .str s => quoteJSONString s
  | .arr .nil => "[]"
  | .arr (.cons v rest) =>
    if unit = "" then "[" ++ serItems unit gap (.cons v rest) ++ "]"
    else "[" ++ "\n" ++ serItems unit (gap ++ unit) (.cons v rest) ++ "\n" ++ gap ++ "]"
  | .obj .nil => "{}"
  | .obj (.cons k v rest) =>
    if unit = "" then "\x7b" ++ serFields unit gap (.cons k v rest) ++ "\x7d"
    else "\x7b" ++ "\n" ++ serFields unit (gap ++ unit) (.cons k v rest) ++ "\n" ++ gap ++ "\x7d"
  termination_by structural v => v

/-- The joined array items, each behind the gap when indenting. -/
def serItems (unit gap : String) : JSArr → String
  | .nil => ""
  | .cons v .nil => (if unit = "" then "" else gap) ++ ser unit gap v
  | .cons v (.cons w rest) =>
    (if unit = "" then "" else gap) ++ ser unit gap v ++
      (if unit = "" then "," else "," ++ "\n") ++ serItems unit gap (.cons w rest)
  termination_by structural items => items

/-- The joined object members, each behind the gap when indenting, with a
space after the colon exactly when indenting. -/
def serFields (unit gap : String) : JSObj → String
  | .nil => ""
  | .cons k v .nil =>
    (if unit = "" then "" else gap) ++ quoteJSONString k ++
      (if unit = "" then ":" else ": ") ++ ser unit gap v
  | .cons k v (.cons k2 v2 rest) =>
    (if unit = "" then "" else gap) ++ quoteJSONString k ++
      (if unit = "" then ":" else ": ") ++ ser unit gap v ++
      (if unit = "" then "," else "," ++ "\n") ++ serFields unit gap (.cons k2 v2 rest)
  termination_by structural fields => fields

end

/-- minifyJSON from jsonUtils: serialization with no whitespace. -/
def minifyJSON (v : JSValue) : String := ser "" "" v

def spaces (n : Nat) : String := (List.replicate n ' ').asString

/-- formatJSON from jsonUtils: serialization with the given indent width,
clamped to ten as JSON.stringify clamps it; width zero degenerates to the
minified form exactly as in the host builtin. -/
def formatJSON (v : JSValue) (indent : Nat) : String :=
  ser (spaces (min indent 10)) "" v

/-- The body of a JSON string literal after its opening quote: literal
characters until the closing quote, with escape sequences decoded;
unescaped control characters are rejected, and unicode escapes must
denote a scalar value (surrogate halves are rejected). -/
def parseStrChars : List Char → Option (List Char × List Char)
  | [] => none
  | c :: rest =>
    if c = '"' then some ([], rest)
    else if c = '\\' then
      match rest with
      | [] => none
      | e :: rest2 =>
        if e = '"' then (parseStrChars rest2).map (fun p => ('"' :: p.1, p.2))
        else if e = '\\' then (parseStrChars rest2).map (fun p => ('\\' :: p.1, p.2))
        else if e = '/' then (parseStrChars rest2).map (fun p => ('/' :: p.1, p.2))
        else if e = 'b' then (parseStrChars rest2).map (fun p => (Char.ofNat 8 :: p.1, p.2))
        else if e = 'f' then (parseStrChars rest2).map (fun p => (Char.ofNat 12 :: p.1, p.2))
        else if e = 'n' then (parseStrChars rest2).map (fun p => ('\n' :: p.1, p.2))
        else if e = 'r' then (parseStrChars rest2).map (fun p => (Char.ofNat 13 :: p.1, p.2))
        else if e = 't' then (parseStrChars rest2).map (fun p => ('\t' :: p.1, p.2))
        else if e = 'u' then
          match rest2 with
          | h1 :: h2 :: h3 :: h4 :: rest3 =>
            match hexVal h1, hexVal h2, hexVal h3, hexVal h4 with
            | some a, some b, some c2, some d =>
              let code := ((a * 16 + b) * 16 + c2) * 16 + d
              if 55296 ≤ code ∧ code ≤ 57343 then none
              else (parseStrChars rest3).map (fun p => (Char.ofNat code :: p.1, p.2))
            | _, _, _, _ => none
          | _ => none
        else none
    else if c.toNat < 32 then none
    else (parseStrChars rest).map (fun p => (c :: p.1, p.2))

/-- Digits of an unsigned decimal integer token, most significant first. -/
def digitsToNat : List Char → Nat → Nat
  | [], acc => acc
  | c :: rest, acc => digitsToNat rest (acc * 10 + (c.toNat - 48))

/-- An unsigned JSON integer token: a nonempty digit run with no redundant
leading zero. -/
def parseNumTok (s : List Char) : Option (Nat × List Char) :=
  let ds := s.takeWhile Char.isDigit
  if ds.isEmpty then none
  else if ds.head? = some '0' ∧ ds.length > 1 then none
  else some (digitsToNat ds 0, s.dropWhile Char.isDigit)

/-- A JSON integer number token with optional leading minus. -/
def parseNumber (s : List Char) : Option (JSValue × List Char) :=
  match s with
  | [] => none
  | c :: rest =>
    if c = '-' then (parseNumTok rest).map (fun p => (.num (-(p.1 : Int)), p.2))
    else (parseNumTok (c :: rest)).map (fun p => (.num (p.1 : Int), p.2))

mutual

/-- Recursive-descent parse of one JSON value, returning the value and
the unconsumed remainder; the fuel bounds the nesting and member count
and strictly exceeds what any input of the given length can need when
chosen as in parseJSON. -/
def parseValue : Nat → List Char → Option (JSValue × List Char)
  | 0, _ => none
  | fuel + 1, s =>
    match skipWs s with
    | [] => none
    | c :: rest =>
      if c = '{' then
        match skipWs rest with
        | [] => none
        | c2 :: rest2 =>
          if c2 = '}' then some (.obj .nil, rest2)
          else (parseMembers fuel (c2 :: rest2)).map (fun p => (.obj p.1, p.2))
      else if c = '[' then
        match skipWs rest with
        | [] => none
        | c2 :: rest2 =>
          if c2 = ']' then some (.arr .nil, rest2)
          else (parseElements fuel (c2 :: rest2)).map (fun p => (.arr p.1, p.2))
      else if c = '"' then
        (parseStrChars rest).map (fun p => (.str (String.mk p.1), p.2))
      else if c = 't' then
        match rest with
        | 'r' :: 'u' :: 'e' :: rest2 => some (.bool true, rest2)
        | _ => none
      else if c = 'f' then
        match rest with
        | 'a' :: 'l' :: 's' :: 'e' :: rest2 => some (.bool false, rest2)
        | _ => none
      else if c = 'n' then
        match rest with
        | 'u' :: 'l' :: 'l' :: rest2 => some (.null, rest2)
        | _ => none
      else parseNumber (c :: rest)
  termination_by structural fuel _ => fuel

/-- One or more comma-separated members up to the closing brace. -/
def parseMembers : Nat → List Char → Option (JSObj × List Char)
  | 0, _ => none
  | fuel + 1, s =>
    match skipWs s with
    | c :: rest =>
      if c = '"' then
        match parseStrChars rest with
        | none => none
        | some (kcs, r1) =>
          match skipWs r1 with
          | c2 :: r2 =>
            if c2 = ':' then
              match parseValue fuel r2 with
              | none => none
              | some (v, r3) =>
                match skipWs r3 with
                | c3 :: r4 =>
                  if c3 = ',' then
                    (parseMembers fuel r4).map (fun p => (.cons (String.mk kcs) v p.1, p.2))
                  else if c3 = '}' then some (.cons (String.mk kcs) v .nil, r4)
                  else none
                | [] => none
            else none
          | [] => none
      else none
    | [] => none
  termination_by structural fuel _ => fuel

/-- One or more comma-separated elements up to the closing bracket. -/
def parseElements : Nat → List Char → Option (JSArr × List Char)
  | 0, _ => none
  | fuel + 1, s =>
    match parseValue fuel s with
    | none => none
    | some (v, r1) =>
      match skipWs r1 with
      | c2 :: r2 =>
        if c2 = ',' then (parseElements fuel r2).map (fun p => (.cons v p.1, p.2))
        else if c2 = ']' then some (.cons v .nil, r2)
        else none
      | [] => none
  termination_by structural fuel _ => fuel

end

/-- Modelled from the spec: the host JSON.parse builtin.  A parse succeeds
exactly when one value, surrounded only by whitespace, spans the whole
text.  The fuel passed in strictly dominates the need of any input of
this length. -/
def parseJSON (s : String) : Option JSValue :=
  match parseValue (2 * s.length + 2) s.data with
  | some (v, rest) => if skipWs rest = [] then some v else none
  | none => none

mutual

/-- Parser fuel consumed by a value, used to show that the fuel chosen by
parseJSON suffices on serializer output. -/
def jfuel : JSValue → Nat
  | .null => 1
  | .bool _ => 1
  | .num _ => 1
  | .str _ => 1
  | .arr .nil => 1
  | .arr (.cons v rest) => 1 + afuel (.cons v rest)
  | .obj .nil => 1
  | .obj (.cons k v rest) => 1 + ofuel (.cons k v rest)
  termination_by structural v => v

def afuel : JSArr → Nat
  | .nil => 0
  | .cons v rest => 1 + jfuel v + afuel rest
  termination_by structural a => a

def ofuel : JSObj → Nat
  | .nil => 0
  | .cons _ v rest => 1 + jfuel v + ofuel rest
  termination_by structural o => o

end

/-- Every character of the list is inter-token whitespace. -/
def wsList (l : List Char) : Prop := ∀ c ∈ l, isJsonWs c = true

/-- Every character of the string is inter-token whitespace. -/
def wsStr (s : String) : Prop := wsList s.data

/-- The list does not begin with a decimal digit, so a preceding number
token cannot absorb it. -/
def noDigitHead : List Char → Prop
  | [] => True
  | c :: _ => c.isDigit = false

/-! ### JSON path resolver (jsonUtils getJSONPathAtPosition) -/

/-- A structural path segment as returned by the location scanner. -/
inductive PathSeg where
  | key (s : String)
  | idx (n : Nat)
deriving DecidableEq, Repr

/-- The identifier test of the renderer: ASCII letter, underscore or
dollar, followed by letters, digits, underscores or dollars. -/
def isIdentSeg (s : String) : Bool :=
  match s.data with
  | [] => false
  | c :: rest =>
    (c.isAlpha || c = '_' || c = '$') &&
      rest.all (fun ch => ch.isAlphanum || ch = '_' || ch = '$')

/-- One step of the dot/bracket rendering loop. -/
def renderSeg (acc : String) (seg : PathSeg) : String :=
  match seg with
  | .idx n => acc ++ "[" ++ intToStr n ++ "]"
  | .key s =>
    if isIdentSeg s then (if acc.length > 0 then acc ++ "." ++ s else acc ++ s)
    else acc ++ "['" ++ s ++ "']"

/-- getJSONPathAtPosition from jsonUtils.  Modelled from the spec: the
third-party jsonc-parser getLocation scanner is external to the
repository, so it is taken as a function parameter; the boundary guard,
the trailing empty-segment drop and the rendering are the repository
code.  The offset is an integer, and string length counts scalar
values. -/
def getJSONPathAtPosition (getLocation : String → Nat → List PathSeg)
    (json : String) (offset : Int) : String :=
  if json = "" ∨ offset < 0 ∨ offset > (json.length : Int) then ""
  else
    let path0 := getLocation json offset.toNat
    let path := if path0.getLast? = some (.key "") then path0.dropLast else path0
    if path = [] then "" else path.foldl renderSeg ""

/-! ### Error position (jsonUtils calculatePosition) -/

/-- The summation loop of calculatePosition: line lengths plus one newline
each, over at most the first k lines. -/
def calcLoop : List String → Nat → Nat
  | _, 0 => 0
  | [], _ + 1 => 0
  | l :: rest, k + 1 => l.length + 1 + calcLoop rest k

/-- calculatePosition from jsonUtils: zero when either coordinate is
missing or zero (JavaScript falsiness), otherwise the prefix-line sum
plus the zero-based column. -/
def calculatePosition (text : String) (line column : Option Nat) : Nat :=
  match line, column with
  | some l, some c =>
    if l = 0 ∨ c = 0 then 0
    else calcLoop (splitNl text) (l - 1) + (c - 1)
  | _, _ => 0

/-- The specification formula for the error offset: the lengths of the
first L-1 lines of the text, one newline character per such line, plus
the zero-based column. -/
def specErrorOffset (text : String) (l c : Nat) : Nat :=
  (((splitNl text).take (l - 1)).map String.length).sum +
    ((splitNl text).take (l - 1)).length + (c - 1)

/-- The head character of a string, if any. -/
def strHead? (s : String) : Option Char := s.data.head?

/-! ### Helper lemmas -/

theorem listIncludes_nil (l : List Char) : listIncludes l [] = true := by
  cases l <;> simp [listIncludes, listStartsWith]

theorem jsIncludes_empty_pat (s : String) : jsIncludes s "" = true := by
  have h : ("" : String).data = [] := rfl
  rw [jsIncludes, h]
  exact listIncludes_nil s.data

theorem strData_append (p q : String) : (p ++ q).data = p.data ++ q.data := rfl

theorem strEq_of_data {s t : String} (h : s.data = t.data) : s = t :=
  String.ext h

theorem strData_ne_nil {s : String} (h : s ≠ "") : s.data ≠ [] := by
  intro h0
  exact h (strEq_of_data h0)

theorem strHead?_append (p q : String) (h : p ≠ "") : strHead? (p ++ q) = strHead? p := by
  rw [strHead?, strHead?, strData_append]
  cases hp : p.data with
  | nil => exact absurd hp (strData_ne_nil h)
  | cons c t => simp

theorem strAppend_ne_empty (p q : String) (h : q ≠ "") : p ++ q ≠ "" := by
  intro h0
  have hd := congrArg String.data h0
  rw [strData_append] at hd
  have : q.data = [] := (List.append_eq_nil.mp hd).2
  exact strData_ne_nil h this

/-! ### Empty search term (C1) -/

mutual

theorem searchRec_empty_len : ∀ (v : JSValue) (p : String),
    (searchRec "" "" v p).length = matchCount v
  | .null, _ => by
    simp [searchRec, matchCount, show jsIncludes "" "null" = false from rfl]
  | .str s, _ => by
    simp [searchRec, matchCount, jsIncludes_empty_pat]
  | .num n, _ => by
    simp [searchRec, matchCount, jsIncludes_empty_pat]
  | .bool b, _ => by
    simp [searchRec, matchCount, jsIncludes_empty_pat]
  | .arr items, p => by
    simpa [searchRec, matchCount] using searchArr_empty_len items p 0
  | .obj fields, p => by
    simpa [searchRec, matchCount] using searchObj_empty_len fields p

theorem searchArr_empty_len : ∀ (items : JSArr) (p : String) (i : Nat),
    (searchArr "" "" items p i).length = matchCountArr items
  | .nil, _, _ => by simp [searchArr, matchCountArr]
  | .cons v rest, p, i => by
    simp [searchArr, matchCountArr, searchRec_empty_len v _,
      searchArr_empty_len rest p (i + 1)]

theorem searchObj_empty_len : ∀ (fields : JSObj) (p : String),
    (searchObj "" "" fields p).length = matchCountObj fields
  | .nil, _ => by simp [searchObj, matchCountObj]
  | .cons k v rest, p => by
    simp [searchObj, matchCountObj, jsIncludes_empty_pat, searchRec_empty_len v _,
      searchObj_empty_len rest p]
    omega

end

/-! ### Tree flattener paths (C10) -/

theorem strAppend_ne_empty_left (p q : String) (h : p ≠ "") : p ++ q ≠ "" := by
  intro h0
  have hd := congrArg String.data h0
  rw [strData_append] at hd
  exact strData_ne_nil h (List.append_eq_nil.mp hd).1

theorem strHead?_bra (t : String) : strHead? ("[" ++ t) = some '[' := rfl

theorem strHead?_dot (t : String) : strHead? ("." ++ t) = some '.' := rfl

mutual

theorem tree_path_shape : ∀ (v : JSValue) (p : String) (n : JSONNode),
    n ∈ convertToTree v p →
    n.path = (if p = "" then "root" else p) ∨
      ∃ s : String, (strHead? s = some '[' ∨ strHead? s = some '.') ∧ n.path = p ++ s
  | .null, p, n => by
    intro h
    simp only [convertToTree, List.mem_singleton] at h
    exact Or.inl (by rw [h])
  | .str s0, p, n => by
    intro h
    simp only [convertToTree, List.mem_singleton] at h
    exact Or.inl (by rw [h])
  | .num n0, p, n => by
    intro h
    simp only [convertToTree, List.mem_singleton] at h
    exact Or.inl (by rw [h])
  | .bool b, p, n => by
    intro h
    simp only [convertToTree, List.mem_singleton] at h
    exact Or.inl (by rw [h])
  | .arr items, p, n => by
    intro h
    simp only [convertToTree, List.mem_cons] at h
    rcases h with he | ht
    · exact Or.inl (by rw [he])
    · obtain ⟨s, hs, hp⟩ := treeArr_path_shape items p 0 n ht
      exact Or.inr ⟨s, Or.inl hs, hp⟩
  | .obj fields, p, n => by
    intro h
    simp only [convertToTree, List.mem_cons] at h
    rcases h with he | ht
    · exact Or.inl (by rw [he])
    · obtain ⟨s, hs, hp⟩ := treeObj_path_shape fields p n ht
      exact Or.inr ⟨s, Or.inr hs, hp⟩
  termination_by structural v _ _ => v

theorem treeArr_path_shape : ∀ (items : JSArr) (p : String) (i : Nat) (n : JSONNode),
    n ∈ treeArr items p i → ∃ s : String, strHead? s = some '[' ∧ n.path = p ++ s
  | .nil, _, _, n => by
    intro h
    simp [treeArr] at h
  | .cons v rest, p, i, n => by
    intro h
    simp only [treeArr, List.mem_append] at h
    rcases h with h1 | h2
    · have hch := tree_path_shape v (p ++ "[" ++ intToStr i ++ "]") n h1
      have hne : (p ++ "[" ++ intToStr i ++ "]" : String) ≠ "" :=
        strAppend_ne_empty _ _ (by decide)
      rcases hch with he | ⟨s, _, hp⟩
      · rw [if_neg hne] at he
        refine ⟨"[" ++ (intToStr i ++ "]"), strHead?_bra _, ?_⟩
        simpa [String.append_assoc] using he
      · refine ⟨"[" ++ (intToStr i ++ ("]" ++ s)), strHead?_bra _, ?_⟩
        simpa [String.append_assoc] using hp
    · exact treeArr_path_shape rest p (i + 1) n h2
  termination_by structural items _ _ _ => items

theorem treeObj_path_shape : ∀ (fields : JSObj) (p : String) (n : JSONNode),
    n ∈ treeObj fields p → ∃ s : String, strHead? s = some '.' ∧ n.path = p ++ s
  | .nil, _, n => by
    intro h
    simp [treeObj] at h
  | .cons k v rest, p, n => by
    intro h
    simp only [treeObj, List.mem_append] at h
    rcases h with h1 | h2
    · have hch := tree_path_shape v (p ++ "." ++ k) n h1
      have hne : (p ++ "." ++ k : String) ≠ "" :=
        strAppend_ne_empty_left _ _ (strAppend_ne_empty _ _ (by decide))
      rcases hch with he | ⟨s, _, hp⟩
      · rw [if_neg hne] at he
        refine ⟨"." ++ k, strHead?_dot _, ?_⟩
        simpa [String.append_assoc] using he
      · refine ⟨"." ++ (k ++ s), strHead?_dot _, ?_⟩
        simpa [String.append_assoc] using hp
    · exact treeObj_path_shape rest p n h2
  termination_by structural fields _ _ => fields

end

/-! ### Scan path length (C6) -/

theorem scanStep_done_len (line : List Char) (i : Nat) (st : ScanState)
    {p : List String} {b : Bool} (h : scanStep line i st = .done p b) :
    p.length ≤ 1 := by
  simp only [scanStep] at h
  repeat' split at h
  all_goals
    first
      | exact ScanOut.noConfusion h
      | (injection h with hp hb; subst hp; simp)

theorem scanLineRev_done_len (line : List Char) :
    ∀ (i : Nat) (st : ScanState) {p : List String} {b : Bool},
      scanLineRev line i st = .done p b → p.length ≤ 1
  | 0, st, p, b => by
    intro h
    simp [scanLineRev] at h
  | i + 1, st, p, b => by
    intro h
    rw [scanLineRev] at h
    cases hs : scanStep line i st with
    | done p2 b2 =>
      rw [hs] at h
      simp only [ScanOut.done.injEq] at h
      obtain ⟨h1, _⟩ := h
      subst h1
      exact scanStep_done_len line i st hs
    | cont st2 =>
      rw [hs] at h
      exact scanLineRev_done_len line i st2 h

theorem scanLines_path_len (lines : List String) (cL : Nat) (uC : String) :
    ∀ (k : Nat) (st : ScanState), ((scanLines lines cL uC k st).1).length ≤ 1
  | 0, st => by simp [scanLines]
  | k + 1, st => by
    rw [scanLines]
    cases hs : scanLineRev (if k + 1 = cL then uC else getLineContent lines (k + 1)).data
        (if k + 1 = cL then uC else getLineContent lines (k + 1)).data.length st with
    | done p b =>
      simp only [hs]
      exact scanLineRev_done_len _ _ _ hs
    | cont st2 =>
      simp only [hs]
      exact scanLines_path_len lines cL uC k st2

/-! ### Final filter invariants (C3, C4) -/

theorem sugKey_set_range (s : Suggestion) (r : Nat × Nat × Nat × Nat) :
    sugKey { s with range := some r } = sugKey s := by
  cases s
  rfl

theorem finalFilter_not_mem : ∀ (range : Nat × Nat × Nat × Nat)
    (l : List Suggestion) (seen : List String) (x : Suggestion),
    x ∈ finalFilter range l seen → ¬ sugKey x ∈ seen
  | _, [], seen, x => by simp [finalFilter]
  | range, s :: rest, seen, x => by
    intro hx
    simp only [finalFilter] at hx
    split at hx
    · exact finalFilter_not_mem range rest seen x hx
    · split at hx
      · exact finalFilter_not_mem range rest seen x hx
      · rcases List.mem_cons.mp hx with he | ht
        · intro hmem
          rename_i hnc
          apply hnc
          have hm : sugKey s ∈ seen := by
            rw [← sugKey_set_range s range, ← he]
            exact hmem
          exact List.elem_eq_true_of_mem hm
        · intro hmem
          exact finalFilter_not_mem range rest (seen ++ [sugKey s]) x ht
            (List.mem_append_left _ hmem)

theorem finalFilter_pairwise : ∀ (range : Nat × Nat × Nat × Nat)
    (l : List Suggestion) (seen : List String),
    (finalFilter range l seen).Pairwise (fun a b => sugKey a ≠ sugKey b)
  | _, [], _ => by simp [finalFilter]
  | range, s :: rest, seen => by
    simp only [finalFilter]
    split
    · exact finalFilter_pairwise range rest seen
    · split
      · exact finalFilter_pairwise range rest seen
      · refine List.Pairwise.cons ?_ (finalFilter_pairwise range rest (seen ++ [sugKey s]))
        intro y hy
        have hnm := finalFilter_not_mem range rest (seen ++ [sugKey s]) y hy
        rw [sugKey_set_range]
        intro hk
        exact hnm (by rw [← hk]; exact List.mem_append_right _ (List.mem_singleton_self _))

theorem finalFilter_text_ok : ∀ (range : Nat × Nat × Nat × Nat)
    (l : List Suggestion) (seen : List String) (x : Suggestion),
    x ∈ finalFilter range l seen →
    jsToLower (sugKey x) ≠ "" ∧ jsIncludes (jsToLower (sugKey x)) "$schema" = false
  | _, [], seen, x => by simp [finalFilter]
  | range, s :: rest, seen, x => by
    intro hx
    simp only [finalFilter] at hx
    split at hx
    · exact finalFilter_text_ok range rest seen x hx
    · split at hx
      · exact finalFilter_text_ok range rest seen x hx
      · rcases List.mem_cons.mp hx with he | ht
        · rename_i hguard _
          rw [he, sugKey_set_range]
          constructor
          · intro h0
            exact hguard (Or.inl h0)
          · cases hb : jsIncludes (jsToLower (sugKey s)) "$schema" with
            | false => rfl
            | true => exact absurd (Or.inr hb) hguard
        · exact finalFilter_text_ok range rest (seen ++ [sugKey s]) x ht

theorem calcLoop_eq : ∀ (lines : List String) (k : Nat),
    calcLoop lines k = ((lines.take k).map String.length).sum + (lines.take k).length
  | [], 0 => by simp [calcLoop]
  | [], _ + 1 => by simp [calcLoop]
  | _ :: _, 0 => by simp [calcLoop]
  | l :: rest, k + 1 => by
    simp [calcLoop, calcLoop_eq rest k]
    omega

/-! ### Roundtrip: whitespace and character facts (C7) -/

theorem strMk_data (s : String) : String.mk s.data = s := rfl

theorem charToNat_ofNat (n : Nat) (h : n.isValidChar) : (Char.ofNat n).toNat = n := by
  simp [Char.ofNat, Char.ofNatAux, Char.toNat, h, UInt32.toNat, BitVec.toNat_ofNatLt]

theorem char_ne_of_isDigit_ne {c k : Char} (h : c.isDigit = true)
    (hk : k.isDigit = false) : c ≠ k := by
  intro h0
  rw [h0, hk] at h
  cases h

theorem isJsonWs_false_of_isDigit {c : Char} (h : c.isDigit = true) :
    isJsonWs c = false := by
  simp only [isJsonWs]
  rw [decide_eq_false (char_ne_of_isDigit_ne h (by decide)),
    decide_eq_false (char_ne_of_isDigit_ne h (by decide)),
    decide_eq_false (char_ne_of_isDigit_ne h (by decide)),
    decide_eq_false (char_ne_of_isDigit_ne h (by decide))]
  rfl

theorem skipWs_nil : skipWs [] = [] := rfl

theorem skipWs_cons_not {c : Char} (t : List Char) (h : isJsonWs c = false) :
    skipWs (c :: t) = c :: t := by
  simp [skipWs, List.dropWhile, h]

theorem skipWs_append_ws {a : List Char} (b : List Char) (h : wsList a) :
    skipWs (a ++ b) = skipWs b := by
  induction a with
  | nil => rfl
  | cons c t ih =>
    have hc : isJsonWs c = true := h c (List.mem_cons_self c t)
    have ht : wsList t := fun x hx => h x (List.mem_cons_of_mem c hx)
    simp [skipWs, List.dropWhile, hc]
    exact ih ht

theorem wsList_nil : wsList [] := fun c hc => absurd hc (List.not_mem_nil c)

theorem wsList_append {a b : List Char} (ha : wsList a) (hb : wsList b) :
    wsList (a ++ b) := by
  intro c hc
  rcases List.mem_append.mp hc with h | h
  · exact ha c h
  · exact hb c h

theorem wsList_cons {c : Char} {t : List Char} (hc : isJsonWs c = true)
    (ht : wsList t) : wsList (c :: t) := by
  intro x hx
  rcases List.mem_cons.mp hx with h | h
  · rw [h]; exact hc
  · exact ht x h

theorem wsStr_empty : wsStr "" := wsList_nil

theorem wsStr_append {a b : String} (ha : wsStr a) (hb : wsStr b) :
    wsStr (a ++ b) := by
  rw [wsStr, strData_append]
  exact wsList_append ha hb

theorem wsStr_spaces (n : Nat) : wsStr (spaces n) := by
  intro c hc
  have hc2 : c ∈ List.replicate n ' ' := by simpa [spaces, List.asString] using hc
  rw [List.eq_of_mem_replicate hc2]
  rfl

theorem noDigitHead_nil : noDigitHead [] := trivial

theorem noDigitHead_of_head {c : Char} (t : List Char) (h : c.isDigit = false) :
    noDigitHead (c :: t) := h

theorem noDigitHead_ws_cons {ws : List Char} {c : Char} (t : List Char)
    (hws : wsList ws) (hc : c.isDigit = false) : noDigitHead (ws ++ c :: t) := by
  cases ws with
  | nil => exact hc
  | cons w wt =>
    show w.isDigit = false
    have hw : isJsonWs w = true := hws w (List.mem_cons_self w wt)
    cases hd : w.isDigit with
    | false => rfl
    | true => rw [isJsonWs_false_of_isDigit hd] at hw; cases hw

/-! ### Roundtrip: string literals (C7) -/

theorem hexVal_hexDigitChar {n : Nat} (h : n < 16) :
    hexVal (hexDigitChar n) = some n := by
  interval_cases n <;> decide

theorem escList_cons (c : Char) (cs : List Char) :
    escList (c :: cs) = escChar c ++ escList cs := by
  simp [escList]

theorem parseStr_roundtrip : ∀ (cs rest : List Char),
    parseStrChars (escList cs ++ '"' :: rest) = some (cs, rest)
  | [], rest => by
    rw [show escList [] ++ '"' :: rest = '"' :: rest from rfl, parseStrChars.eq_def]
    simp
  | c :: cs, rest => by
    have ih := parseStr_roundtrip cs rest
    by_cases h1 : c = '"'
    · subst h1
      rw [escList_cons, show escChar '"' = ['\\', '"'] from by decide]
      rw [show (['\\', '"'] ++ escList cs) ++ '"' :: rest =
        '\\' :: '"' :: (escList cs ++ '"' :: rest) from by simp, parseStrChars.eq_def]
      simp [ih]
    · by_cases h2 : c = '\\'
      · subst h2
        rw [escList_cons, show escChar '\\' = ['\\', '\\'] from by decide]
        rw [show (['\\', '\\'] ++ escList cs) ++ '"' :: rest =
          '\\' :: '\\' :: (escList cs ++ '"' :: rest) from by simp, parseStrChars.eq_def]
        simp [ih]
      · by_cases h3 : c = Char.ofNat 8
        · subst h3
          rw [escList_cons, show escChar (Char.ofNat 8) = ['\\', 'b'] from by decide]
          rw [show (['\\', 'b'] ++ escList cs) ++ '"' :: rest =
            '\\' :: 'b' :: (escList cs ++ '"' :: rest) from by simp, parseStrChars.eq_def]
          simp [ih]
        · by_cases h4 : c = Char.ofNat 12
          · subst h4
            rw [escList_cons, show escChar (Char.ofNat 12) = ['\\', 'f'] from by decide]
            rw [show (['\\', 'f'] ++ escList cs) ++ '"' :: rest =
              '\\' :: 'f' :: (escList cs ++ '"' :: rest) from by simp, parseStrChars.eq_def]
            simp [ih]
          · by_cases h5 : c = '\n'
            · subst h5
              rw [escList_cons, show escChar '\n' = ['\\', 'n'] from by decide]
              rw [show (['\\', 'n'] ++ escList cs) ++ '"' :: rest =
                '\\' :: 'n' :: (escList cs ++ '"' :: rest) from by simp, parseStrChars.eq_def]
              simp [ih]
            · by_cases h6 : c = Char.ofNat 13
              · subst h6
                rw [escList_cons, show escChar (Char.ofNat 13) = ['\\', 'r'] from by decide]
                rw [show (['\\', 'r'] ++ escList cs) ++ '"' :: rest =
                  '\\' :: 'r' :: (escList cs ++ '"' :: rest) from by simp, parseStrChars.eq_def]
                simp [ih]
              · by_cases h7 : c = '\t'
                · subst h7
                  rw [escList_cons, show escChar '\t' = ['\\', 't'] from by decide]
                  rw [show (['\\', 't'] ++ escList cs) ++ '"' :: rest =
                    '\\' :: 't' :: (escList cs ++ '"' :: rest) from by simp, parseStrChars.eq_def]
                  simp [ih]
                · by_cases h8 : c.toNat < 32
                  · have hhi : c.toNat / 16 < 16 := by omega
                    have hlo : c.toNat % 16 < 16 := by omega
                    have hesc : escChar c = ['\\', 'u', '0', '0',
                        hexDigitChar (c.toNat / 16), hexDigitChar (c.toNat % 16)] := by
                      simp [escChar, h1, h2, h3, h4, h5, h6, h7, h8]
                    rw [escList_cons, hesc]
                    rw [show (['\\', 'u', '0', '0', hexDigitChar (c.toNat / 16),
                        hexDigitChar (c.toNat % 16)] ++ escList cs) ++ '"' :: rest =
                      '\\' :: 'u' :: '0' :: '0' :: hexDigitChar (c.toNat / 16) ::
                        hexDigitChar (c.toNat % 16) :: (escList cs ++ '"' :: rest) from by simp,
                      parseStrChars.eq_def]
                    have hdm : c.toNat / 16 * 16 + c.toNat % 16 = c.toNat := by omega
                    simp [hexVal_hexDigitChar hhi, hexVal_hexDigitChar hlo,
                      show hexVal '0' = some 0 from rfl, ih]
                    refine ⟨by omega, ?_⟩
                    rw [hdm, Char.ofNat_toNat]
                  · have hesc : escChar c = [c] := by
                      simp [escChar, h1, h2, h3, h4, h5, h6, h7, h8]
                    rw [escList_cons, hesc]
                    rw [show ([c] ++ escList cs) ++ '"' :: rest =
                      c :: (escList cs ++ '"' :: rest) from by simp, parseStrChars.eq_def]
                    simp [h1, h2, h8, ih]

/-! ### Roundtrip: numbers (C7) -/

theorem digitsToNat_append_singleton : ∀ (a : List Char) (d : Char) (acc : Nat),
    digitsToNat (a ++ [d]) acc = digitsToNat a acc * 10 + (d.toNat - 48)
  | [], d, acc => by simp [digitsToNat]
  | c :: a, d, acc => by
    simp [digitsToNat, digitsToNat_append_singleton a d (acc * 10 + (c.toNat - 48))]

theorem charIsDigit_ofNat {m : Nat} (h : m ≤ 9) :
    (Char.ofNat (48 + m)).isDigit = true := by
  interval_cases m <;> decide

theorem charOfNatDigit_ne_zero {m : Nat} (h : m ≤ 9) (h0 : m ≠ 0) :
    Char.ofNat (48 + m) ≠ '0' := by
  interval_cases m <;> simp_all

theorem digitVal_ofNat {m : Nat} (h : m ≤ 9) :
    (Char.ofNat (48 + m)).toNat - 48 = m := by
  rw [charToNat_ofNat _ (Or.inl (by omega))]
  omega

theorem natDigitsAux_spec : ∀ (fuel n : Nat), n < fuel →
    natDigitsAux fuel n ≠ [] ∧
    (∀ c ∈ natDigitsAux fuel n, c.isDigit = true) ∧
    digitsToNat (natDigitsAux fuel n) 0 = n ∧
    (n ≠ 0 → (natDigitsAux fuel n).head? ≠ some '0')
  | 0, n, h => absurd h (by omega)
  | fuel + 1, n, h => by
    by_cases h10 : n < 10
    · refine ⟨by simp [natDigitsAux, h10], ?_, ?_, ?_⟩
      · intro c hc
        simp only [natDigitsAux, if_pos h10, List.mem_singleton] at hc
        rw [hc]
        exact charIsDigit_ofNat (by omega)
      · simp only [natDigitsAux, if_pos h10]
        simp [digitsToNat, digitVal_ofNat (show n ≤ 9 by omega)]
      · intro hn0
        simp only [natDigitsAux, if_pos h10, List.head?_cons, ne_eq, Option.some.injEq]
        exact charOfNatDigit_ne_zero (by omega) hn0
    · have hrec := natDigitsAux_spec fuel (n / 10) (by omega)
      obtain ⟨hne, hdig, hval, hhead⟩ := hrec
      simp only [natDigitsAux, if_neg h10]
      refine ⟨by simp, ?_, ?_, ?_⟩
      · intro c hc
        rcases List.mem_append.mp hc with hm | hm
        · exact hdig c hm
        · rw [List.mem_singleton.mp hm]
          exact charIsDigit_ofNat (by omega)
      · rw [digitsToNat_append_singleton, hval, digitVal_ofNat (by omega)]
        omega
      · intro _
        cases hd : natDigitsAux fuel (n / 10) with
        | nil => exact absurd hd hne
        | cons c t =>
          simp only [hd, List.cons_append, List.head?_cons, ne_eq, Option.some.injEq]
          have := hhead (by omega)
          rw [hd] at this
          simpa using this

theorem natDigits_spec (n : Nat) :
    natDigits n ≠ [] ∧
    (∀ c ∈ natDigits n, c.isDigit = true) ∧
    digitsToNat (natDigits n) 0 = n ∧
    (n ≠ 0 → (natDigits n).head? ≠ some '0') :=
  natDigitsAux_spec (n + 1) n (by omega)

theorem takeWhile_all_append {p : Char → Bool} : ∀ (a b : List Char),
    (∀ x ∈ a, p x = true) → (∀ c, b.head? = some c → p c = false) →
    (a ++ b).takeWhile p = a ∧ (a ++ b).dropWhile p = b
  | [], b, _, hb => by
    cases b with
    | nil => simp
    | cons c t =>
      have := hb c rfl
      simp [List.takeWhile, List.dropWhile, this]
  | x :: a, b, ha, hb => by
    have hx : p x = true := ha x (List.mem_cons_self x a)
    have ih := takeWhile_all_append a b (fun y hy => ha y (List.mem_cons_of_mem x hy)) hb
    simp [List.takeWhile, List.dropWhile, hx, ih.1, ih.2]

theorem parseNumTok_roundtrip (n : Nat) (rest : List Char) (hrest : noDigitHead rest) :
    parseNumTok (natDigits n ++ rest) = some (n, rest) := by
  obtain ⟨hne, hdig, hval, hhead⟩ := natDigits_spec n
  have hb : ∀ c, rest.head? = some c → c.isDigit = false := by
    intro c hc
    cases rest with
    | nil => cases hc
    | cons r t =>
      have hrc : r = c := by simpa using hc
      rw [← hrc]
      exact hrest
  obtain ⟨htake, hdrop⟩ := takeWhile_all_append (natDigits n) rest hdig hb
  rw [parseNumTok, htake, hdrop]
  rw [if_neg (by simpa [List.isEmpty_iff] using hne)]
  by_cases h0 : n = 0
  · subst h0
    rw [if_neg (by rw [show natDigits 0 = ['0'] from rfl]; simp)]
    rw [hval]
  · rw [if_neg (by rintro ⟨hz, _⟩; exact hhead h0 hz)]
    rw [hval]

theorem intToStr_data_neg {i : Int} (h : i < 0) :
    (intToStr i).data = '-' :: natDigits i.natAbs := by
  rw [intToStr, if_pos h, strData_append]
  rfl

theorem intToStr_data_nonneg {i : Int} (h : ¬i < 0) :
    (intToStr i).data = natDigits i.toNat := by
  rw [intToStr, if_neg h]
  rfl

theorem parseNumber_roundtrip (i : Int) (rest : List Char) (hrest : noDigitHead rest) :
    parseNumber ((intToStr i).data ++ rest) = some (.num i, rest) := by
  by_cases hneg : i < 0
  · rw [intToStr_data_neg hneg, List.cons_append, parseNumber, if_pos rfl,
      parseNumTok_roundtrip i.natAbs rest hrest, Option.map_some']
    have hni : -(i.natAbs : Int) = i := by omega
    rw [hni]
  · obtain ⟨hne, hdig, _, _⟩ := natDigits_spec i.toNat
    cases hd : natDigits i.toNat with
    | nil => exact absurd hd hne
    | cons c t =>
      have hcdig : c.isDigit = true := hdig c (by rw [hd]; exact List.mem_cons_self c t)
      rw [intToStr_data_nonneg hneg, hd, List.cons_append, parseNumber]
      rw [if_neg (char_ne_of_isDigit_ne hcdig (by decide))]
      rw [show c :: (t ++ rest) = (c :: t) ++ rest from rfl, ← hd,
        parseNumTok_roundtrip i.toNat rest hrest]
      simp [Int.toNat_of_nonneg (show (0 : Int) ≤ i by omega)]

/-! ### Roundtrip: fuel accounting and serializer shape (C7) -/

theorem jfuel_pos : ∀ v : JSValue, 1 ≤ jfuel v
  | .null => le_refl 1
  | .bool _ => le_refl 1
  | .num _ => le_refl 1
  | .str _ => le_refl 1
  | .arr .nil => le_refl 1
  | .arr (.cons _ _) => by simp [jfuel]
  | .obj .nil => le_refl 1
  | .obj (.cons _ _ _) => by simp [jfuel]

theorem afuel_cons_pos (v : JSValue) (its : JSArr) : 1 ≤ afuel (.cons v its) := by
  simp only [afuel]
  omega

theorem ofuel_cons_pos (k : String) (v : JSValue) (fs : JSObj) :
    1 ≤ ofuel (.cons k v fs) := by
  simp only [ofuel]
  omega

theorem strLen_data (s : String) : s.length = s.data.length := rfl

theorem strLen_append (a b : String) : (a ++ b).length = a.length + b.length := by
  rw [strLen_data, strLen_data, strLen_data, strData_append, List.length_append]

theorem intToStr_len_pos (i : Int) : 1 ≤ (intToStr i).length := by
  by_cases h : i < 0
  · rw [intToStr, if_pos h, strLen_append]
    have e1 : ("-" : String).length = 1 := rfl
    omega
  · rw [strLen_data, intToStr_data_nonneg h]
    have := (natDigits_spec i.toNat).1
    cases hd : natDigits i.toNat with
    | nil => exact absurd hd this
    | cons c t => simp [hd]

mutual

theorem jfuel_le_len : ∀ (v : JSValue) (unit gap : String),
    jfuel v ≤ (ser unit gap v).length
  | .null, _, _ => by
    simp only [jfuel, ser]
    decide
  | .bool b, _, _ => by
    cases b <;> (simp only [jfuel, ser, boolStr]; decide)
  | .num i, u, g => by
    simp only [jfuel, ser]
    exact intToStr_len_pos i
  | .str s, u, g => by
    simp only [jfuel, ser, quoteJSONString, strLen_data]
    simp
  | .arr .nil, _, _ => by
    simp only [jfuel, ser]
    decide
  | .arr (.cons v its), u, g => by
    have h := afuel_le_len v its u (g ++ u)
    have h2 := afuel_le_len v its u g
    have e1 : ("[" : String).length = 1 := rfl
    have e2 : ("]" : String).length = 1 := rfl
    have e3 : ("\n" : String).length = 1 := rfl
    simp only [jfuel, ser]
    split <;> (simp only [strLen_append]; omega)
  | .obj .nil, _, _ => by
    simp only [jfuel, ser]
    decide
  | .obj (.cons k v fs), u, g => by
    have h := ofuel_le_len k v fs u (g ++ u)
    have h2 := ofuel_le_len k v fs u g
    have e1 : ("\x7b" : String).length = 1 := rfl
    have e2 : ("\x7d" : String).length = 1 := rfl
    have e3 : ("\n" : String).length = 1 := rfl
    simp only [jfuel, ser]
    split <;> (simp only [strLen_append]; omega)
  termination_by v _ _ => sizeOf v

theorem afuel_le_len : ∀ (v : JSValue) (its : JSArr) (unit gap : String),
    afuel (.cons v its) ≤ (serItems unit gap (.cons v its)).length + 1
  | v, .nil, u, g => by
    have h := jfuel_le_len v u g
    simp only [afuel, serItems, strLen_append]
    omega
  | v, .cons w its2, u, g => by
    have h := jfuel_le_len v u g
    have h2 := afuel_le_len w its2 u g
    have h3 : 1 ≤ (if u = "" then ("," : String) else "," ++ "\n").length := by
      split <;> decide
    have h4 : afuel (.cons w its2) = 1 + jfuel w + afuel its2 := rfl
    simp only [afuel, serItems, strLen_append]
    omega
  termination_by v its _ _ => sizeOf v + sizeOf its

theorem ofuel_le_len : ∀ (k : String) (v : JSValue) (fs : JSObj) (unit gap : String),
    ofuel (.cons k v fs) ≤ (serFields unit gap (.cons k v fs)).length + 1
  | k, v, .nil, u, g => by
    have h := jfuel_le_len v u g
    have hc : 1 ≤ (if u = "" then (":" : String) else ": ").length := by
      split <;> decide
    simp only [ofuel, serFields, strLen_append]
    omega
  | k, v, .cons k2 v2 fs2, u, g => by
    have h := jfuel_le_len v u g
    have h2 := ofuel_le_len k2 v2 fs2 u g
    have hc : 1 ≤ (if u = "" then (":" : String) else ": ").length := by
      split <;> decide
    have h3 : 1 ≤ (if u = "" then ("," : String) else "," ++ "\n").length := by
      split <;> decide
    have h4 : ofuel (.cons k2 v2 fs2) = 1 + jfuel v2 + ofuel fs2 := rfl
    simp only [ofuel, serFields, strLen_append]
    omega
  termination_by _ v fs _ _ => sizeOf v + sizeOf fs

end

/-- Head character of every serialized value: never whitespace, never a
closing bracket or brace, giving the parser its branch selector. -/
theorem ser_head (u g : String) (v : JSValue) :
    ∃ c t, (ser u g v).data = c :: t ∧ isJsonWs c = false ∧ c ≠ ']' ∧ c ≠ '}' := by
  cases v with
  | null => exact ⟨'n', ['u', 'l', 'l'], rfl, by decide, by decide, by decide⟩
  | bool b =>
    cases b
    · exact ⟨'f', ['a', 'l', 's', 'e'], rfl, by decide, by decide, by decide⟩
    · exact ⟨'t', ['r', 'u', 'e'], rfl, by decide, by decide, by decide⟩
  | num i =>
    by_cases h : i < 0
    · exact ⟨'-', natDigits i.natAbs, by simpa [ser] using intToStr_data_neg h,
        by decide, by decide, by decide⟩
    · obtain ⟨hne, hdig, _, _⟩ := natDigits_spec i.toNat
      cases hd : natDigits i.toNat with
      | nil => exact absurd hd hne
      | cons c t =>
        have hc : c.isDigit = true := hdig c (by rw [hd]; exact List.mem_cons_self c t)
        exact ⟨c, t, by rw [show (ser u g (.num i)).data = (intToStr i).data from rfl,
            intToStr_data_nonneg h, hd],
          isJsonWs_false_of_isDigit hc,
          char_ne_of_isDigit_ne hc (by decide), char_ne_of_isDigit_ne hc (by decide)⟩
  | str s =>
    exact ⟨'"', escList s.data ++ ['"'], rfl, by decide, by decide, by decide⟩
  | arr its =>
    cases its with
    | nil => exact ⟨'[', [']'], rfl, by decide, by decide, by decide⟩
    | cons w its2 =>
      refine ⟨'[', ?_, ?_, by decide, by decide, by decide⟩
      · exact ((ser u g (.arr (.cons w its2))).data).tail
      · simp only [ser]
        split <;> simp [strData_append]
  | obj fs =>
    cases fs with
    | nil => exact ⟨'{', ['}'], rfl, by decide, by decide, by decide⟩
    | cons k w fs2 =>
      refine ⟨'{', ?_, ?_, by decide, by decide, by decide⟩
      · exact ((ser u g (.obj (.cons k w fs2))).data).tail
      · simp only [ser]
        split <;> simp [strData_append]

theorem serItems_decomp (u g : String) (v : JSValue) (its : JSArr) :
    ∃ mid, (serItems u g (.cons v its)).data =
      (if u = "" then ([] : List Char) else g.data) ++ (ser u g v).data ++ mid := by
  cases its with
  | nil =>
    refine ⟨[], ?_⟩
    by_cases hu : u = "" <;> simp [serItems, hu, strData_append]
  | cons w its2 =>
    refine ⟨(if u = "" then ("," : String) else "," ++ "\n").data ++
      (serItems u g (.cons w its2)).data, ?_⟩
    by_cases hu : u = "" <;> simp [serItems, hu, strData_append]

theorem serFields_decomp (u g : String) (k : String) (v : JSValue) (fs : JSObj) :
    ∃ mid, (serFields u g (.cons k v fs)).data =
      (if u = "" then ([] : List Char) else g.data) ++ '"' :: mid := by
  cases fs with
  | nil =>
    refine ⟨escList k.data ++ ['"'] ++ (if u = "" then (":" : String) else ": ").data ++
      (ser u g v).data, ?_⟩
    by_cases hu : u = "" <;>
      simp [serFields, hu, strData_append, quoteJSONString]
  | cons k2 v2 fs2 =>
    refine ⟨escList k.data ++ ['"'] ++ (if u = "" then (":" : String) else ": ").data ++
      (ser u g v).data ++ (if u = "" then ("," : String) else "," ++ "\n").data ++
      (serFields u g (.cons k2 v2 fs2)).data, ?_⟩
    by_cases hu : u = "" <;>
      simp [serFields, hu, strData_append, quoteJSONString]

theorem skipWs_idem (s : List Char) : skipWs (skipWs s) = skipWs s := by
  induction s with
  | nil => rfl
  | cons c t ih =>
    by_cases h : isJsonWs c = true
    · simp [skipWs, List.dropWhile, h] at ih ⊢
      exact ih
    · rw [skipWs_cons_not t (by simpa using h), skipWs_cons_not t (by simpa using h)]

theorem parseValue_skipWs (fuel : Nat) (s : List Char) :
    parseValue fuel (skipWs s) = parseValue fuel s := by
  cases fuel with
  | zero => rfl
  | succ f =>
    rw [parseValue, parseValue, skipWs_idem]

theorem parseElements_skipWs (fuel : Nat) (s : List Char) :
    parseElements fuel (skipWs s) = parseElements fuel s := by
  cases fuel with
  | zero => rfl
  | succ f =>
    rw [parseElements, parseElements, parseValue_skipWs]

theorem parseMembers_skipWs (fuel : Nat) (s : List Char) :
    parseMembers fuel (skipWs s) = parseMembers fuel s := by
  cases fuel with
  | zero => rfl
  | succ f =>
    rw [parseMembers, parseMembers, skipWs_idem]

theorem skipWs_sep (u : String) (X : List Char) :
    skipWs ((if u = "" then ([','] : List Char) else [',', '\n']) ++ X) =
      ',' :: ((if u = "" then ([] : List Char) else ['\n']) ++ X) := by
  by_cases hu : u = ""
  · rw [if_pos hu, if_pos hu]
    rw [show ([','] : List Char) ++ X = ',' :: ([] ++ X) from by simp]
    exact skipWs_cons_not _ (by decide)
  · rw [if_neg hu, if_neg hu]
    rw [show ([',', '\n'] : List Char) ++ X = ',' :: (['\n'] ++ X) from by simp]
    exact skipWs_cons_not _ (by decide)

theorem skipWs_colon (u : String) (X : List Char) :
    skipWs ((if u = "" then ([':'] : List Char) else [':', ' ']) ++ X) =
      ':' :: ((if u = "" then ([] : List Char) else [' ']) ++ X) := by
  by_cases hu : u = ""
  · rw [if_pos hu, if_pos hu]
    rw [show ([':'] : List Char) ++ X = ':' :: ([] ++ X) from by simp]
    exact skipWs_cons_not _ (by decide)
  · rw [if_neg hu, if_neg hu]
    rw [show ([':', ' '] : List Char) ++ X = ':' :: ([' '] ++ X) from by simp]
    exact skipWs_cons_not _ (by decide)

theorem noDigitHead_sep (u : String) (X : List Char) :
    noDigitHead ((if u = "" then ([','] : List Char) else [',', '\n']) ++ X) := by
  by_cases hu : u = "" <;> simp [hu, noDigitHead]

/-! ### Roundtrip: the main induction (C7) -/

mutual

theorem rt_val : ∀ (fuel : Nat) (v : JSValue) (u g : String) (lead rest : List Char),
    jfuel v ≤ fuel → wsStr u → wsStr g → wsList lead → noDigitHead rest →
    parseValue fuel (lead ++ ((ser u g v).data ++ rest)) = some (v, rest)
  | 0, v, _, _, _, _ => by
    intro hf _ _ _ _
    exact absurd (le_trans (jfuel_pos v) hf) (by omega)
  | fuel + 1, .null, u, g, lead, rest => by
    intro _ _ _ hl _
    have hsk : skipWs (lead ++ ((ser u g .null).data ++ rest)) =
        'n' :: ('u' :: 'l' :: 'l' :: rest) := by
      rw [skipWs_append_ws _ hl]
      rw [show (ser u g .null).data ++ rest = 'n' :: ('u' :: 'l' :: 'l' :: rest) from rfl]
      exact skipWs_cons_not _ (by decide)
    rw [parseValue, hsk]
    simp
  | fuel + 1, .bool b, u, g, lead, rest => by
    intro _ _ _ hl _
    cases b
    · have hsk : skipWs (lead ++ ((ser u g (.bool false)).data ++ rest)) =
          'f' :: ('a' :: 'l' :: 's' :: 'e' :: rest) := by
        rw [skipWs_append_ws _ hl]
        rw [show (ser u g (.bool false)).data ++ rest =
          'f' :: ('a' :: 'l' :: 's' :: 'e' :: rest) from rfl]
        exact skipWs_cons_not _ (by decide)
      rw [parseValue, hsk]
      simp
    · have hsk : skipWs (lead ++ ((ser u g (.bool true)).data ++ rest)) =
          't' :: ('r' :: 'u' :: 'e' :: rest) := by
        rw [skipWs_append_ws _ hl]
        rw [show (ser u g (.bool true)).data ++ rest =
          't' :: ('r' :: 'u' :: 'e' :: rest) from rfl]
        exact skipWs_cons_not _ (by decide)
      rw [parseValue, hsk]
      simp
  | fuel + 1, .str s, u, g, lead, rest => by
    intro _ _ _ hl _
    have hd : (ser u g (.str s)).data = '"' :: (escList s.data ++ ['"']) := rfl
    have hsk : skipWs (lead ++ ((ser u g (.str s)).data ++ rest)) =
        '"' :: ((escList s.data ++ ['"']) ++ rest) := by
      rw [skipWs_append_ws _ hl, hd]
      exact skipWs_cons_not _ (by decide)
    rw [parseValue, hsk]
    have hq : (escList s.data ++ ['"']) ++ rest = escList s.data ++ '"' :: rest := by simp
    simp only [hq]
    simp [parseStr_roundtrip, strMk_data]
  | fuel + 1, .num i, u, g, lead, rest => by
    intro _ _ _ hl hr
    have hd : (ser u g (.num i)).data = (intToStr i).data := rfl
    have hhead : ∃ c t, (intToStr i).data = c :: t ∧ isJsonWs c = false ∧
        c ≠ '{' ∧ c ≠ '[' ∧ c ≠ '"' ∧ c ≠ 't' ∧ c ≠ 'f' ∧ c ≠ 'n' := by
      by_cases h : i < 0
      · exact ⟨'-', natDigits i.natAbs, intToStr_data_neg h, by decide, by decide,
          by decide, by decide, by decide, by decide, by decide⟩
      · obtain ⟨hne, hdig, _, _⟩ := natDigits_spec i.toNat
        cases hdd : natDigits i.toNat with
        | nil => exact absurd hdd hne
        | cons c t =>
          have hc : c.isDigit = true := hdig c (by rw [hdd]; exact List.mem_cons_self c t)
          exact ⟨c, t, by rw [intToStr_data_nonneg h, hdd], isJsonWs_false_of_isDigit hc,
            char_ne_of_isDigit_ne hc (by decide), char_ne_of_isDigit_ne hc (by decide),
            char_ne_of_isDigit_ne hc (by decide), char_ne_of_isDigit_ne hc (by decide),
            char_ne_of_isDigit_ne hc (by decide), char_ne_of_isDigit_ne hc (by decide)⟩
    obtain ⟨c, t, hct, hws, h1, h2, h3, h4, h5, h6⟩ := hhead
    have hsk : skipWs (lead ++ ((ser u g (.num i)).data ++ rest)) = c :: (t ++ rest) := by
      rw [skipWs_append_ws _ hl, hd, hct]
      exact skipWs_cons_not _ hws
    rw [parseValue, hsk]
    simp only [h1, h2, h3, h4, h5, h6, if_false, ite_false, if_neg]
    rw [show c :: (t ++ rest) = (c :: t) ++ rest from rfl, ← hct]
    exact parseNumber_roundtrip i rest hr
  | fuel + 1, .arr .nil, u, g, lead, rest => by
    intro _ _ _ hl _
    have hsk : skipWs (lead ++ ((ser u g (.arr .nil)).data ++ rest)) =
        '[' :: (']' :: rest) := by
      rw [skipWs_append_ws _ hl]
      rw [show (ser u g (.arr .nil)).data ++ rest = '[' :: (']' :: rest) from rfl]
      exact skipWs_cons_not _ (by decide)
    rw [parseValue, hsk]
    have h2 : skipWs (']' :: rest) = ']' :: rest := skipWs_cons_not _ (by decide)
    simp [h2]
  | fuel + 1, .arr (.cons w its), u, g, lead, rest => by
    intro hf hu2 hg hl _
    have hfa : afuel (.cons w its) ≤ fuel := by
      have : jfuel (.arr (.cons w its)) = 1 + afuel (.cons w its) := rfl
      omega
    by_cases hu : u = ""
    · obtain ⟨mid, hX⟩ := serItems_decomp u g w its
      rw [if_pos hu] at hX
      obtain ⟨c2, t2, hser, hnws, hnrb, _⟩ := ser_head u g w
      have hdata : (ser u g (.arr (.cons w its))).data =
          '[' :: ((serItems u g (.cons w its)).data ++ [']']) := by
        simp only [ser, if_pos hu]
        simp [strData_append]
      have hsk : skipWs (lead ++ ((ser u g (.arr (.cons w its))).data ++ rest)) =
          '[' :: (((serItems u g (.cons w its)).data ++ [']']) ++ rest) := by
        rw [skipWs_append_ws _ hl, hdata]
        exact skipWs_cons_not _ (by decide)
      rw [parseValue, hsk]
      have hXr : ((serItems u g (.cons w its)).data ++ [']']) ++ rest =
          c2 :: (t2 ++ mid ++ ']' :: rest) := by
        rw [hX, hser]
        simp
      have hsk2 : skipWs (((serItems u g (.cons w its)).data ++ [']']) ++ rest) =
          c2 :: (t2 ++ mid ++ ']' :: rest) := by
        rw [hXr]
        exact skipWs_cons_not _ hnws
      simp only [hsk2, ite_true, if_true]
      rw [if_neg hnrb]
      have hit := rt_items fuel w its u g [] [] rest hfa hu2 hg wsList_nil wsList_nil
      rw [← hXr, show ((serItems u g (.cons w its)).data ++ [']']) ++ rest =
        [] ++ ((serItems u g (.cons w its)).data ++ ([] ++ ']' :: rest)) from by simp] at *
      rw [hit]
      simp
    · obtain ⟨mid, hX⟩ := serItems_decomp u (g ++ u) w its
      rw [if_neg hu] at hX
      obtain ⟨c2, t2, hser, hnws, hnrb, _⟩ := ser_head u (g ++ u) w
      have hdata : (ser u g (.arr (.cons w its))).data =
          '[' :: ('\n' :: ((serItems u (g ++ u) (.cons w its)).data ++
            ('\n' :: (g.data ++ [']'])))) := by
        simp only [ser, if_neg hu]
        simp [strData_append]
      have hsk : skipWs (lead ++ ((ser u g (.arr (.cons w its))).data ++ rest)) =
          '[' :: (('\n' :: ((serItems u (g ++ u) (.cons w its)).data ++
            ('\n' :: (g.data ++ [']'])))) ++ rest) := by
        rw [skipWs_append_ws _ hl, hdata]
        exact skipWs_cons_not _ (by decide)
      rw [parseValue, hsk]
      have hY : ('\n' :: ((serItems u (g ++ u) (.cons w its)).data ++
          ('\n' :: (g.data ++ [']'])))) ++ rest =
          ('\n' :: (g ++ u).data) ++ ((ser u (g ++ u) w).data ++
            (mid ++ '\n' :: (g.data ++ (']' :: rest)))) := by
        rw [hX]
        simp
      have hwsl : wsList ('\n' :: (g ++ u).data) :=
        wsList_cons (by decide) (wsStr_append hg hu2)
      have hsk2 : skipWs (('\n' :: ((serItems u (g ++ u) (.cons w its)).data ++
          ('\n' :: (g.data ++ [']'])))) ++ rest) =
          c2 :: (t2 ++ (mid ++ '\n' :: (g.data ++ (']' :: rest)))) := by
        rw [hY, skipWs_append_ws _ hwsl, hser]
        rw [show (c2 :: t2) ++ (mid ++ '\n' :: (g.data ++ (']' :: rest))) =
          c2 :: (t2 ++ (mid ++ '\n' :: (g.data ++ (']' :: rest)))) from rfl]
        exact skipWs_cons_not _ hnws
      simp only [hsk2, ite_true, if_true]
      rw [if_neg hnrb]
      have hback : c2 :: (t2 ++ (mid ++ '\n' :: (g.data ++ (']' :: rest)))) =
          skipWs (('\n' :: ((serItems u (g ++ u) (.cons w its)).data ++
            ('\n' :: (g.data ++ [']'])))) ++ rest) := hsk2.symm
      rw [hback, parseElements_skipWs]
      have hit := rt_items fuel w its u (g ++ u) ['\n'] ('\n' :: g.data) rest hfa hu2
        (wsStr_append hg hu2) (wsList_cons (by decide) wsList_nil)
        (wsList_cons (by decide) hg)
      rw [show ('\n' :: ((serItems u (g ++ u) (.cons w its)).data ++
          ('\n' :: (g.data ++ [']'])))) ++ rest =
        ['\n'] ++ ((serItems u (g ++ u) (.cons w its)).data ++
          (('\n' :: g.data) ++ ']' :: rest)) from by simp]
      rw [hit]
      simp
  | fuel + 1, .obj .nil, u, g, lead, rest => by
    intro _ _ _ hl _
    have hsk : skipWs (lead ++ ((ser u g (.obj .nil)).data ++ rest)) =
        '{' :: ('}' :: rest) := by
      rw [skipWs_append_ws _ hl]
      rw [show (ser u g (.obj .nil)).data ++ rest = '{' :: ('}' :: rest) from rfl]
      exact skipWs_cons_not _ (by decide)
    rw [parseValue, hsk]
    have h2 : skipWs ('}' :: rest) = '}' :: rest := skipWs_cons_not _ (by decide)
    simp [h2]
  | fuel + 1, .obj (.cons k w fs), u, g, lead, rest => by
    intro hf hu2 hg hl _
    have hfo : ofuel (.cons k w fs) ≤ fuel := by
      have : jfuel (.obj (.cons k w fs)) = 1 + ofuel (.cons k w fs) := rfl
      omega
    by_cases hu : u = ""
    · obtain ⟨mid, hX⟩ := serFields_decomp u g k w fs
      rw [if_pos hu] at hX
      have hdata : (ser u g (.obj (.cons k w fs))).data =
          '{' :: ((serFields u g (.cons k w fs)).data ++ ['}']) := by
        simp only [ser, if_pos hu]
        simp [strData_append]
      have hsk : skipWs (lead ++ ((ser u g (.obj (.cons k w fs))).data ++ rest)) =
          '{' :: (((serFields u g (.cons k w fs)).data ++ ['}']) ++ rest) := by
        rw [skipWs_append_ws _ hl, hdata]
        exact skipWs_cons_not _ (by decide)
      rw [parseValue, hsk]
      have hXr : ((serFields u g (.cons k w fs)).data ++ ['}']) ++ rest =
          '"' :: (mid ++ ['}'] ++ rest) := by
        rw [hX]
        simp
      have hsk2 : skipWs (((serFields u g (.cons k w fs)).data ++ ['}']) ++ rest) =
          '"' :: (mid ++ ['}'] ++ rest) := by
        rw [hXr]
        exact skipWs_cons_not _ (by decide)
      simp only [hsk2, ite_true, if_true]
      rw [if_neg (by decide)]
      have hfl := rt_fields fuel k w fs u g [] [] rest hfo hu2 hg wsList_nil wsList_nil
      rw [← hXr, show ((serFields u g (.cons k w fs)).data ++ ['}']) ++ rest =
        [] ++ ((serFields u g (.cons k w fs)).data ++ ([] ++ '}' :: rest)) from by simp] at *
      rw [hfl]
      simp
    · obtain ⟨mid, hX⟩ := serFields_decomp u (g ++ u) k w fs
      rw [if_neg hu] at hX
      have hdata : (ser u g (.obj (.cons k w fs))).data =
          '{' :: ('\n' :: ((serFields u (g ++ u) (.cons k w fs)).data ++
            ('\n' :: (g.data ++ ['}'])))) := by
        simp only [ser, if_neg hu]
        simp [strData_append]
      have hsk : skipWs (lead ++ ((ser u g (.obj (.cons k w fs))).data ++ rest)) =
          '{' :: (('\n' :: ((serFields u (g ++ u) (.cons k w fs)).data ++
            ('\n' :: (g.data ++ ['}'])))) ++ rest) := by
        rw [skipWs_append_ws _ hl, hdata]
        exact skipWs_cons_not _ (by decide)
      rw [parseValue, hsk]
      have hwsl : wsList ('\n' :: (g ++ u).data) :=
        wsList_cons (by decide) (wsStr_append hg hu2)
      have hY : ('\n' :: ((serFields u (g ++ u) (.cons k w fs)).data ++
          ('\n' :: (g.data ++ ['}'])))) ++ rest =
          ('\n' :: (g ++ u).data) ++ ('"' :: (mid ++ '\n' :: (g.data ++ ('}' :: rest)))) := by
        rw [hX]
        simp
      have hsk2 : skipWs (('\n' :: ((serFields u (g ++ u) (.cons k w fs)).data ++
          ('\n' :: (g.data ++ ['}'])))) ++ rest) =
          '"' :: (mid ++ '\n' :: (g.data ++ ('}' :: rest))) := by
        rw [hY, skipWs_append_ws _ hwsl]
        exact skipWs_cons_not _ (by decide)
      simp only [hsk2, ite_true, if_true]
      rw [if_neg (by decide)]
      have hback : '"' :: (mid ++ '\n' :: (g.data ++ ('}' :: rest))) =
          skipWs (('\n' :: ((serFields u (g ++ u) (.cons k w fs)).data ++
            ('\n' :: (g.data ++ ['}'])))) ++ rest) := hsk2.symm
      rw [hback, parseMembers_skipWs]
      have hfl := rt_fields fuel k w fs u (g ++ u) ['\n'] ('\n' :: g.data) rest hfo hu2
        (wsStr_append hg hu2) (wsList_cons (by decide) wsList_nil)
        (wsList_cons (by decide) hg)
      rw [show ('\n' :: ((serFields u (g ++ u) (.cons k w fs)).data ++
          ('\n' :: (g.data ++ ['}'])))) ++ rest =
        ['\n'] ++ ((serFields u (g ++ u) (.cons k w fs)).data ++
          (('\n' :: g.data) ++ '}' :: rest)) from by simp]
      rw [hfl]
      simp
  termination_by structural fuel _ _ _ _ _ => fuel

theorem rt_items : ∀ (fuel : Nat) (first : JSValue) (its : JSArr) (u G : String)
    (lead tailws rest : List Char),
    afuel (.cons first its) ≤ fuel → wsStr u → wsStr G → wsList lead → wsList tailws →
    parseElements fuel
        (lead ++ ((serItems u G (.cons first its)).data ++ (tailws ++ ']' :: rest))) =
      some (.cons first its, rest)
  | 0, first, its, _, _, _, _, _ => by
    intro hf _ _ _ _
    exact absurd (le_trans (afuel_cons_pos first its) hf) (by omega)
  | fuel + 1, first, .nil, u, G, lead, tailws, rest => by
    intro hf hu2 hG hl ht
    have hfj : jfuel first ≤ fuel := by
      have : afuel (.cons first .nil) = 1 + jfuel first + 0 := rfl
      omega
    have hpre : wsList (if u = "" then ([] : List Char) else G.data) := by
      split
      · exact wsList_nil
      · exact hG
    have hX : (serItems u G (.cons first .nil)).data =
        (if u = "" then ([] : List Char) else G.data) ++ (ser u G first).data := by
      by_cases hu : u = "" <;> simp [serItems, hu, strData_append]
    have hs : lead ++ ((serItems u G (.cons first .nil)).data ++ (tailws ++ ']' :: rest)) =
        (lead ++ (if u = "" then ([] : List Char) else G.data)) ++
          ((ser u G first).data ++ (tailws ++ ']' :: rest)) := by
      rw [hX]
      simp
    rw [parseElements, hs]
    rw [rt_val fuel first u G _ _ hfj hu2 hG (wsList_append hl hpre)
      (noDigitHead_ws_cons _ ht (by decide))]
    have hsk3 : skipWs (tailws ++ ']' :: rest) = ']' :: rest := by
      rw [skipWs_append_ws _ ht]
      exact skipWs_cons_not _ (by decide)
    simp [hsk3]
  | fuel + 1, first, .cons w2 its2, u, G, lead, tailws, rest => by
    intro hf hu2 hG hl ht
    have hfj : jfuel first ≤ fuel := by
      have h1 : afuel (.cons first (.cons w2 its2)) =
          1 + jfuel first + afuel (.cons w2 its2) := rfl
      have h2 := afuel_cons_pos w2 its2
      omega
    have hfa2 : afuel (.cons w2 its2) ≤ fuel := by
      have h1 : afuel (.cons first (.cons w2 its2)) =
          1 + jfuel first + afuel (.cons w2 its2) := rfl
      have h2 := jfuel_pos first
      omega
    have hpre : wsList (if u = "" then ([] : List Char) else G.data) := by
      split
      · exact wsList_nil
      · exact hG
    have hX : (serItems u G (.cons first (.cons w2 its2))).data =
        (if u = "" then ([] : List Char) else G.data) ++ ((ser u G first).data ++
          ((if u = "" then ([','] : List Char) else [',', '\n']) ++
            (serItems u G (.cons w2 its2)).data)) := by
      by_cases hu : u = "" <;> simp [serItems, hu, strData_append]
    have hs : lead ++ ((serItems u G (.cons first (.cons w2 its2))).data ++
        (tailws ++ ']' :: rest)) =
        (lead ++ (if u = "" then ([] : List Char) else G.data)) ++
          ((ser u G first).data ++
            ((if u = "" then ([','] : List Char) else [',', '\n']) ++
              ((serItems u G (.cons w2 its2)).data ++ (tailws ++ ']' :: rest)))) := by
      rw [hX]
      simp
    have hnd := noDigitHead_sep u
      ((serItems u G (.cons w2 its2)).data ++ (tailws ++ ']' :: rest))
    rw [parseElements, hs]
    rw [rt_val fuel first u G _ _ hfj hu2 hG (wsList_append hl hpre) hnd]
    have hsk3 := skipWs_sep u
      ((serItems u G (.cons w2 its2)).data ++ (tailws ++ ']' :: rest))
    simp only [hsk3]
    have hlead2 : wsList (if u = "" then ([] : List Char) else ['\n']) := by
      split
      · exact wsList_nil
      · exact wsList_cons (by decide) wsList_nil
    have hit := rt_items fuel w2 its2 u G
      (if u = "" then ([] : List Char) else ['\n']) tailws rest hfa2 hu2 hG hlead2 ht
    simp only [ite_true, if_true]
    rw [hit]
    simp
  termination_by structural fuel _ _ _ _ _ _ _ => fuel

theorem rt_fields : ∀ (fuel : Nat) (k : String) (first : JSValue) (fs : JSObj)
    (u G : String) (lead tailws rest : List Char),
    ofuel (.cons k first fs) ≤ fuel → wsStr u → wsStr G → wsList lead → wsList tailws →
    parseMembers fuel
        (lead ++ ((serFields u G (.cons k first fs)).data ++ (tailws ++ '}' :: rest))) =
      some (.cons k first fs, rest)
  | 0, k, first, fs, _, _, _, _, _ => by
    intro hf _ _ _ _
    exact absurd (le_trans (ofuel_cons_pos k first fs) hf) (by omega)
  | fuel + 1, k, first, .nil, u, G, lead, tailws, rest => by
    intro hf hu2 hG hl ht
    have hfj : jfuel first ≤ fuel := by
      have : ofuel (.cons k first .nil) = 1 + jfuel first + 0 := rfl
      omega
    have hpre : wsList (if u = "" then ([] : List Char) else G.data) := by
      split
      · exact wsList_nil
      · exact hG
    have hX : (serFields u G (.cons k first .nil)).data =
        (if u = "" then ([] : List Char) else G.data) ++
          ('"' :: (escList k.data ++ ['"'] ++
            ((if u = "" then ([':'] : List Char) else [':', ' ']) ++
              (ser u G first).data))) := by
      by_cases hu : u = "" <;>
        simp [serFields, hu, strData_append, quoteJSONString]
    have hsk : skipWs (lead ++ ((serFields u G (.cons k first .nil)).data ++
        (tailws ++ '}' :: rest))) =
        '"' :: (escList k.data ++ '"' ::
          ((if u = "" then ([':'] : List Char) else [':', ' ']) ++
            ((ser u G first).data ++ (tailws ++ '}' :: rest)))) := by
      rw [hX]
      rw [show (lead ++ (((if u = "" then ([] : List Char) else G.data) ++
        ('"' :: (escList k.data ++ ['"'] ++
          ((if u = "" then ([':'] : List Char) else [':', ' ']) ++
            (ser u G first).data)))) ++ (tailws ++ '}' :: rest))) =
        (lead ++ (if u = "" then ([] : List Char) else G.data)) ++
          ('"' :: (escList k.data ++ '"' ::
            ((if u = "" then ([':'] : List Char) else [':', ' ']) ++
              ((ser u G first).data ++ (tailws ++ '}' :: rest))))) from by simp]
      rw [skipWs_append_ws _ (wsList_append hl hpre)]
      exact skipWs_cons_not _ (by decide)
    rw [parseMembers, hsk]
    simp only [ite_true, if_true]
    rw [parseStr_roundtrip]
    have hcol := skipWs_colon u ((ser u G first).data ++ (tailws ++ '}' :: rest))
    simp only [hcol, ite_true, if_true]
    have hlead2 : wsList (if u = "" then ([] : List Char) else [' ']) := by
      split
      · exact wsList_nil
      · exact wsList_cons (by decide) wsList_nil
    rw [rt_val fuel first u G _ _ hfj hu2 hG hlead2
      (noDigitHead_ws_cons _ ht (by decide))]
    have hsk3 : skipWs (tailws ++ '}' :: rest) = '}' :: rest := by
      rw [skipWs_append_ws _ ht]
      exact skipWs_cons_not _ (by decide)
    simp [hsk3, strMk_data]
  | fuel + 1, k, first, .cons k2 w2 fs2, u, G, lead, tailws, rest => by
    intro hf hu2 hG hl ht
    have hfj : jfuel first ≤ fuel := by
      have h1 : ofuel (.cons k first (.cons k2 w2 fs2)) =
          1 + jfuel first + ofuel (.cons k2 w2 fs2) := rfl
      have h2 := ofuel_cons_pos k2 w2 fs2
      omega
    have hfo2 : ofuel (.cons k2 w2 fs2) ≤ fuel := by
      have h1 : ofuel (.cons k first (.cons k2 w2 fs2)) =
          1 + jfuel first + ofuel (.cons k2 w2 fs2) := rfl
      have h2 := jfuel_pos first
      omega
    have hpre : wsList (if u = "" then ([] : List Char) else G.data) := by
      split
      · exact wsList_nil
      · exact hG
    have hX : (serFields u G (.cons k first (.cons k2 w2 fs2))).data =
        (if u = "" then ([] : List Char) else G.data) ++
          ('"' :: (escList k.data ++ ['"'] ++
            ((if u = "" then ([':'] : List Char) else [':', ' ']) ++
              ((ser u G first).data ++
                ((if u = "" then ([','] : List Char) else [',', '\n']) ++
                  (serFields u G (.cons k2 w2 fs2)).data))))) := by
      by_cases hu : u = "" <;>
        simp [serFields, hu, strData_append, quoteJSONString]
    have hsk : skipWs (lead ++ ((serFields u G (.cons k first (.cons k2 w2 fs2))).data ++
        (tailws ++ '}' :: rest))) =
        '"' :: (escList k.data ++ '"' ::
          ((if u = "" then ([':'] : List Char) else [':', ' ']) ++
            ((ser u G first).data ++
              ((if u = "" then ([','] : List Char) else [',', '\n']) ++
                ((serFields u G (.cons k2 w2 fs2)).data ++ (tailws ++ '}' :: rest)))))) := by
      rw [hX]
      rw [show (lead ++ (((if u = "" then ([] : List Char) else G.data) ++
        ('"' :: (escList k.data ++ ['"'] ++
          ((if u = "" then ([':'] : List Char) else [':', ' ']) ++
            ((ser u G first).data ++
              ((if u = "" then ([','] : List Char) else [',', '\n']) ++
                (serFields u G (.cons k2 w2 fs2)).data)))))) ++ (tailws ++ '}' :: rest))) =
        (lead ++ (if u = "" then ([] : List Char) else G.data)) ++
          ('"' :: (escList k.data ++ '"' ::
            ((if u = "" then ([':'] : List Char) else [':', ' ']) ++
              ((ser u G first).data ++
                ((if u = "" then ([','] : List Char) else [',', '\n']) ++
                  ((serFields u G (.cons k2 w2 fs2)).data ++
                    (tailws ++ '}' :: rest))))))) from by simp]
      rw [skipWs_append_ws _ (wsList_append hl hpre)]
      exact skipWs_cons_not _ (by decide)
    rw [parseMembers, hsk]
    simp only [ite_true, if_true]
    rw [parseStr_roundtrip]
    have hcol := skipWs_colon u ((ser u G first).data ++
      ((if u = "" then ([','] : List Char) else [',', '\n']) ++
        ((serFields u G (.cons k2 w2 fs2)).data ++ (tailws ++ '}' :: rest))))
    simp only [hcol, ite_true, if_true]
    have hlead2 : wsList (if u = "" then ([] : List Char) else [' ']) := by
      split
      · exact wsList_nil
      · exact wsList_cons (by decide) wsList_nil
    have hnd := noDigitHead_sep u
      ((serFields u G (.cons k2 w2 fs2)).data ++ (tailws ++ '}' :: rest))
    rw [rt_val fuel first u G _ _ hfj hu2 hG hlead2 hnd]
    have hsk3 := skipWs_sep u
      ((serFields u G (.cons k2 w2 fs2)).data ++ (tailws ++ '}' :: rest))
    simp only [hsk3]
    have hlead3 : wsList (if u = "" then ([] : List Char) else ['\n']) := by
      split
      · exact wsList_nil
      · exact wsList_cons (by decide) wsList_nil
    have hfl := rt_fields fuel k2 w2 fs2 u G
      (if u = "" then ([] : List Char) else ['\n']) tailws rest hfo2 hu2 hG hlead3 ht
    simp only [ite_true, if_true]
    rw [hfl]
    simp [strMk_data]
  termination_by structural fuel _ _ _ _ _ _ _ _ => fuel

end

/-- Parsing the serialization with any all-whitespace indent unit and the
empty initial gap recovers the value exactly. -/
theorem parseJSON_ser (v : JSValue) (u : String) (hu : wsStr u) :
    parseJSON (ser u "" v) = some v := by
  have hfuel : jfuel v ≤ 2 * (ser u "" v).length + 2 := by
    have := jfuel_le_len v u ""
    omega
  have hrt := rt_val (2 * (ser u "" v).length + 2) v u "" [] [] hfuel hu wsStr_empty
    wsList_nil noDigitHead_nil
  rw [show ([] : List Char) ++ ((ser u "" v).data ++ []) = (ser u "" v).data from by simp]
    at hrt
  rw [parseJSON, hrt]
  rfl

/-! ### Claim theorems -/

/-- C1, counterexample: searching the one-string document for the empty
term returns a match, not the empty sequence the claim asserts. -/
theorem C1_counterexample : searchJSON (JSValue.str "x") "" ≠ [] := by decide

/-- C1, amended: for every JSON value, search with the empty term matches
every string, number and boolean value and every object key (and no
null), so it returns matchCount v matches rather than none; the
empty-term guard lives in the caller, not in searchJSON. -/
theorem C1_empty_term_amended : ∀ v : JSValue, (searchJSON v "").length = matchCount v := by
  intro v
  exact searchRec_empty_len v "root"

/-- C2, counterexample: for the single-line document with the cursor
right before the closing braces, the analyzer path is empty, not the
one-segment list containing the inner key. -/
theorem C2_counterexample :
    (detectStringContext ["\x7b\"a\": \x7b\"b\": \x7d\x7d"] 1 13).path ≠ ["b"] := by decide

/-- C2, amended: for that document and cursor, isValue is true but the
path is empty: the scanned prefix includes the character at the cursor,
so the closing brace raises the depth, the inner colon is seen at depth
one, and the key lookup for the outer colon fails on the truncated
prefix. -/
theorem C2_context_amended :
    detectStringContext ["\x7b\"a\": \x7b\"b\": \x7d\x7d"] 1 13 =
      ⟨"", [], true, false⟩ := by decide

/-- C5: a null value matches exactly when the lowercased search term
contains the substring null; in particular a proper prefix of null such
as nul matches nothing while a longer term containing null matches. -/
theorem C5_null_asymmetry :
    (∀ t : String, (searchJSON JSValue.null t).length =
      (if jsIncludes (jsToLower t) "null" = true then 1 else 0)) ∧
    (searchJSON JSValue.null "xNULLx").length = 1 ∧
    (searchJSON JSValue.null "nul").length = 0 := by
  refine ⟨?_, by decide, by decide⟩
  intro t
  show (searchRec t (jsToLower t) .null "root").length = _
  simp only [searchRec]
  split <;> simp_all

/-- C6: for every document and cursor position the analyzer path has at
most one segment. -/
theorem C6_path_single_segment : ∀ (lines : List String) (lineNumber column : Nat),
    ((detectStringContext lines lineNumber column).path).length ≤ 1 := by
  intro lines ln col
  exact scanLines_path_len lines ln
    (strTake (getLineContent lines ln) col) ln ⟨0, false, false, false, ""⟩

/-- C8: whenever the offset is negative or beyond the end of the text,
the path resolver returns the empty string, for every location scanner. -/
theorem C8_pathAtOffset_bounds :
    ∀ (getLocation : String → Nat → List PathSeg) (json : String) (offset : Int),
      offset < 0 ∨ (json.length : Int) < offset →
      getJSONPathAtPosition getLocation json offset = "" := by
  intro gl json off h
  unfold getJSONPathAtPosition
  rw [if_pos]
  rcases h with h | h
  · exact Or.inr (Or.inl h)
  · exact Or.inr (Or.inr h)

theorem C8_pathAtOffset_bounds_witness :
    getJSONPathAtPosition (fun _ _ => []) "ab" (-1) = "" :=
  C8_pathAtOffset_bounds (fun _ _ => []) "ab" (-1) (Or.inl (by decide))

/-- C9: when both the line and the column were extracted (both at least
one), the computed position is the sum of the lengths of the first L-1
lines plus one newline per such line plus the zero-based column; when
either is missing the position is zero. -/
theorem C9_error_offset : ∀ (text : String) (l c : Nat),
    (1 ≤ l → 1 ≤ c →
      calculatePosition text (some l) (some c) = specErrorOffset text l c) ∧
    calculatePosition text none (some c) = 0 ∧
    calculatePosition text (some l) none = 0 ∧
    calculatePosition text none none = 0 := by
  intro text l c
  refine ⟨?_, rfl, rfl, rfl⟩
  intro hl hc
  show (if l = 0 ∨ c = 0 then 0 else calcLoop (splitNl text) (l - 1) + (c - 1)) = _
  rw [if_neg (by omega), specErrorOffset, calcLoop_eq]

theorem C9_error_offset_witness :
    calculatePosition "ab\ncde\nf" (some 3) (some 5) = specErrorOffset "ab\ncde\nf" 3 5 ∧
    calculatePosition "ab\ncde\nf" (some 3) (some 5) = 11 :=
  ⟨(C9_error_offset "ab\ncde\nf" 3 5).1 (by decide) (by decide), by decide⟩

/-- C10: the first node of the flattened tree carries the path root, and
every other node's path begins with an opening bracket or a dot, so the
root label never leaks into descendant paths. -/
theorem C10_root_label : ∀ v : JSValue,
    ((convertToTree v "").head?).map JSONNode.path = some "root" ∧
    ∀ n ∈ (convertToTree v "").tail,
      strHead? n.path = some '[' ∨ strHead? n.path = some '.' := by
  intro v
  cases v with
  | null => exact ⟨rfl, by simp [convertToTree]⟩
  | str s => exact ⟨rfl, by simp [convertToTree]⟩
  | num n => exact ⟨rfl, by simp [convertToTree]⟩
  | bool b => exact ⟨rfl, by simp [convertToTree]⟩
  | arr items =>
    refine ⟨rfl, ?_⟩
    intro n hn
    have ht : n ∈ treeArr items "" 0 := by
      rw [show convertToTree (.arr items) "" =
        ⟨none, .arr items, "array", "root"⟩ :: treeArr items "" 0 from rfl,
        List.tail_cons] at hn
      exact hn
    obtain ⟨s, hs, hp⟩ := treeArr_path_shape items "" 0 n ht
    left
    rw [hp, show ("" ++ s : String) = s from by simp]
    exact hs
  | obj fields =>
    refine ⟨rfl, ?_⟩
    intro n hn
    have ht : n ∈ treeObj fields "" := by
      rw [show convertToTree (.obj fields) "" =
        ⟨none, .obj fields, "object", "root"⟩ :: treeObj fields "" from rfl,
        List.tail_cons] at hn
      exact hn
    obtain ⟨s, hs, hp⟩ := treeObj_path_shape fields "" n ht
    right
    rw [hp, show ("" ++ s : String) = s from by simp]
    exact hs

/-- C3, counterexample: with the typed token Foo and vocabulary word foo
the provider returns both a quoted Foo and a quoted foo candidate, whose
insert texts are equal case-insensitively. -/
theorem C3_counterexample :
    (provideCompletionItems ["Foo"] 1 4 none ["foo"] []).map
      (fun s => jsToLower s.insertText) = ["\"foo\"", "\"foo\""] := by decide

/-- C3, amended: the final candidate list is deduplicated by the raw,
case-sensitive key text (the insert text, or the label when the insert
text is empty): no two returned candidates share that key. -/
theorem C3_dedup_amended : ∀ (lines : List String) (lineNumber column : Nat)
    (parsed : Option JSValue) (existingWords existingChunks : List String),
    (provideCompletionItems lines lineNumber column parsed
      existingWords existingChunks).Pairwise (fun a b => sugKey a ≠ sugKey b) := by
  intro lines ln col parsed ws cs
  simp only [provideCompletionItems]
  split
  · simp
  · exact finalFilter_pairwise _ _ _

/-- C4, counterexample: with the typed token my and vocabulary word
myschema, the provider returns a candidate whose text case-insensitively
contains schema, so the claimed blanket suppression of such candidates
does not hold. -/
theorem C4_counterexample :
    (provideCompletionItems ["my"] 1 3 none ["myschema"] []).map
        (fun s => s.insertText) = ["\"my\"", "\"myschema\""] ∧
      jsIncludes (jsToLower "\"myschema\"") "schema" = true := by decide

/-- C4, amended: when the in-progress token contains a dollar sign or
case-insensitively contains schema the provider aborts with the empty
list; and every returned candidate has a nonempty text that does not
case-insensitively contain the dollar-schema marker (only that exact
marker is filtered from the final list, not every dollar or schema
occurrence). -/
theorem C4_schema_amended : ∀ (lines : List String) (lineNumber column : Nat)
    (parsed : Option JSValue) (existingWords existingChunks : List String),
    ((jsIncludesChar (detectStringContext lines lineNumber column).text '$' = true ∨
        jsIncludes (jsToLower (detectStringContext lines lineNumber column).text) "schema" = true) →
      provideCompletionItems lines lineNumber column parsed existingWords existingChunks = []) ∧
    ∀ s ∈ provideCompletionItems lines lineNumber column parsed existingWords existingChunks,
      jsToLower (sugKey s) ≠ "" ∧ jsIncludes (jsToLower (sugKey s)) "$schema" = false := by
  intro lines ln col parsed ws cs
  constructor
  · intro h
    simp only [provideCompletionItems]
    rw [if_pos]
    rcases h with h | h
    · exact Or.inr (Or.inr (Or.inl h))
    · exact Or.inr (Or.inr (Or.inr h))
  · intro s hs
    simp only [provideCompletionItems] at hs
    split at hs
    · simp at hs
    · exact finalFilter_text_ok _ _ _ s hs

theorem C4_schema_amended_witness :
    provideCompletionItems ["myschema"] 1 9 none [] [] = [] ∧
    (jsToLower (sugKey ((provideCompletionItems ["my"] 1 3 none ["myschema"] []).headD
        ⟨"", 0, "", none, none, none, none⟩)) ≠ "" ∧
      jsIncludes (jsToLower (sugKey ((provideCompletionItems ["my"] 1 3 none
        ["myschema"] []).headD ⟨"", 0, "", none, none, none, none⟩))) "$schema" = false) :=
  ⟨(C4_schema_amended ["myschema"] 1 9 none [] []).1 (Or.inr (by decide)),
    (C4_schema_amended ["my"] 1 3 none ["myschema"] []).2 _ (by decide)⟩

/-- C7: parsing the formatted text of any value, at any indent width,
yields the value back, and likewise for the minified text: format and
minify only ever change whitespace, never the value. -/
theorem C7_format_minify_roundtrip : ∀ (v : JSValue) (indent : Nat),
    parseJSON (formatJSON v indent) = some v ∧ parseJSON (minifyJSON v) = some v := by
  intro v indent
  exact ⟨parseJSON_ser v (spaces (min indent 10)) (wsStr_spaces _),
    parseJSON_ser v "" wsStr_empty⟩

theorem C10_root_label_witness :
    ((convertToTree (JSValue.obj (.cons "k" .null .nil)) "").head?).map JSONNode.path =
      some "root" ∧
    (strHead? (JSONNode.mk none .null "null" ".k").path = some '[' ∨
      strHead? (JSONNode.mk none .null "null" ".k").path = some '.') :=
  ⟨(C10_root_label (JSValue.obj (.cons "k" .null .nil))).1,
    (C10_root_label (JSValue.obj (.cons "k" .null .nil))).2
      (JSONNode.mk none .null "null" ".k") (by decide)⟩

end JsonBro
